import Mathlib

/-!
# Streaming average calculators

A shallow embedding of the three stream operators of package `calculators`
(`MovingAverage.go`, `ExponentialMovingAverage.go`, `WindowedAverage.go`).

Each operator is a goroutine running `for { select { ... } }`.  The body of the
`case tick, ok := <-ticks` arm is embedded as a `step` function on the
goroutine's local variables; `runLoop` iterates it over the ticks delivered by
the channel before it is closed; `Goroutine.exec` replays a schedule of
channel and context events against the same body.
-/

namespace calculators

/-! ## External capabilities -/

/-- Modelled from the spec: the arbitrary-precision decimal type
`decimal.Decimal` of `github.com/shopspring/decimal`, which is not part of the
repository.  The spec describes it as a numeric capability with exact add,
subtract, multiply and divide, so a value is a rational number and `Add`,
`Sub`, `Mul` are the field operations of `ℚ`. -/
abbrev Decimal := ℚ

/-- Modelled from the spec: `d.Div(d2)`, exact division without implicit
rounding.  A zero divisor makes the library call panic, which is `none`. -/
def Decimal.Div (d d2 : Decimal) : Option Decimal :=
  if d2 = 0 then none else some (d / d2)

/-- Modelled from the spec: `d.Pow(d2)` for an integer exponent `d2`, the
integer exponentiation of the numeric capability. -/
def Decimal.Pow (d : Decimal) (d2 : Int) : Decimal := d ^ d2

/-- Modelled from the spec: `d.Round(places)` for `places ≥ 0`, the
round-to-N-places display operation (halves are rounded away from zero).  Only
the tests call it, on the values received from an operator. -/
def Decimal.Round (d : Decimal) (places : Nat) : Decimal :=
  if 0 ≤ d then (⌊d * 10 ^ places + 1 / 2⌋ : Int) / 10 ^ places
  else -((⌊-d * 10 ^ places + 1 / 2⌋ : Int) / 10 ^ places)

/-- An instant of `time.Time`, counted in nanoseconds on the clock's time line. -/
abbrev Time := Int

/-- A `time.Duration`, counted in nanoseconds. -/
abbrev Duration := Int

/-- The constant `time.Second`. -/
def Second : Duration := 1000000000

/-- The constant `time.Minute`. -/
def Minute : Duration := 60 * Second

/-- Modelled from the spec: the clock capability's `elapsed(since)` query,
`clk.Since(t)`, for a clock that reads `now`. -/
def Since (now t : Time) : Duration := now - t

/-! ## Tick.go -/

/-- The struct `Tick`. -/
structure Tick where
  Price : Decimal
  Timestamp : Time
deriving DecidableEq

/-! ## The receive loop -/

/-- The loop `for { select { case tick, ok := <-ticks: ... } }` when the
context is never cancelled: the body runs once for each value the channel
delivers, in order, and the loop returns when the channel is closed.  The
result is the final local state and the values sent on `out`; `none` is a
panic inside the body. -/
def runLoop {σ ι : Type} (body : σ → ι → Option (σ × Option Decimal)) :
    σ → List ι → Option (σ × List Decimal)
  | s, [] => some (s, [])
  | s, x :: xs =>
    match body s x with
    | none => none
    | some (s1, o) =>
      match runLoop body s1 xs with
      | none => none
      | some (s2, vs) => some (s2, o.toList ++ vs)

/-! ## MovingAverage.go -/

namespace MovingAverage

/-- The goroutine's local variables `window` and `sum`. -/
structure State where
  window : List Decimal
  sum : Decimal

/-- The zero values of `var window []decimal.Decimal` and `var sum decimal.Decimal`. -/
def init : State := ⟨[], 0⟩

/-- The statement `out <- sum.Div(decimal.NewFromInt(int64(len(window))))`. -/
def emit (s : State) : Option (State × Option Decimal) :=
  match Decimal.Div s.sum (s.window.length : Decimal) with
  | none => none
  | some v => some (s, some v)

/-- The body of the `case tick, ok := <-ticks` arm for a received tick. -/
def step (N : Int) (s : State) (tick : Tick) : Option (State × Option Decimal) :=
  let window := s.window ++ [tick.Price]
  let sum := s.sum + tick.Price
  if (window.length : Int) > N then
    match window[0]? with
    | none => none
    | some w0 => emit ⟨window.drop 1, sum - w0⟩
  else
    emit ⟨window, sum⟩

/-- The goroutine run on a channel that delivers `ticks` and is then closed. -/
def run (N : Int) (ticks : List Tick) : Option (State × List Decimal) :=
  runLoop (step N) init ticks

end MovingAverage

/-- The values received from `MovingAverage(ctx, ticks, N)` when the channel
delivers `ticks` and is closed, and the context is not cancelled. -/
def MovingAverage (N : Int) (ticks : List Tick) : Option (List Decimal) :=
  (MovingAverage.run N ticks).map Prod.snd

/-! ## ExponentialMovingAverage.go -/

namespace ExponentialMovingAverage

/-- The goroutine's local variables `window` and `ema`. -/
structure State where
  window : List Decimal
  ema : Decimal

/-- The zero values of `var window []decimal.Decimal` and `var ema decimal.Decimal`. -/
def init : State := ⟨[], 0⟩

/-- The constant `removalFactor`, `(1 - alphaDec)^(N - 1)`. -/
def removalFactor (N : Int) (alphaDec : Decimal) : Decimal :=
  Decimal.Pow (1 - alphaDec) (N - 1)

/-- The body of the `case tick, ok := <-ticks` arm for a received tick;
`alphaDec` is `decimal.NewFromFloat(alpha)`. -/
def step (N : Int) (alphaDec : Decimal) (s : State) (tick : Tick) :
    Option (State × Option Decimal) :=
  let window := s.window ++ [tick.Price]
  if (window.length : Int) > N then
    match window[0]? with
    | none => none
    | some w0 =>
      let ema := s.ema - alphaDec * w0 * removalFactor N alphaDec
      let window := window.drop 1
      let ema := alphaDec * tick.Price + (1 - alphaDec) * ema
      some (⟨window, ema⟩, some ema)
  else if window.length = 1 then
    let ema := alphaDec * tick.Price
    some (⟨window, ema⟩, some ema)
  else
    let ema := alphaDec * tick.Price + (1 - alphaDec) * s.ema
    some (⟨window, ema⟩, some ema)

/-- The goroutine run on a channel that delivers `ticks` and is then closed. -/
def run (N : Int) (alphaDec : Decimal) (ticks : List Tick) : Option (State × List Decimal) :=
  runLoop (step N alphaDec) init ticks

end ExponentialMovingAverage

/-- The values received from `ExponentialMovingAverage(ctx, ticks, N, alpha)`
when the channel delivers `ticks` and is closed, and the context is not
cancelled; `alphaDec` is `decimal.NewFromFloat(alpha)`. -/
def ExponentialMovingAverage (N : Int) (alphaDec : Decimal) (ticks : List Tick) :
    Option (List Decimal) :=
  (ExponentialMovingAverage.run N alphaDec ticks).map Prod.snd

/-! ## WindowedAverage.go -/

namespace WindowedAverage

/-- The goroutine's local variables `window` and `sum`. -/
structure State where
  window : List Tick
  sum : Decimal

/-- The zero values of `var window []Tick` and `var sum decimal.Decimal`. -/
def init : State := ⟨[], 0⟩

/-- The loop `for len(window) > 0 && clk.Since(window[0].Timestamp) > d`, which
subtracts the head's price from `sum` and drops the head; the clock reads
`now` throughout. -/
def evict (d : Duration) (now : Time) : List Tick → Decimal → List Tick × Decimal
  | [], sum => ([], sum)
  | w0 :: rest, sum =>
    if Since now w0.Timestamp > d then evict d now rest (sum - w0.Price)
    else (w0 :: rest, sum)

/-- The body of the `case tick, ok := <-ticks` arm for a received tick, paired
with the reading `now` of the clock `clk` while the tick is processed.  The
`fmt.Println` of `clk.Now()` touches neither the local variables nor `out`. -/
def step (d : Duration) (s : State) (x : Tick × Time) : Option (State × Option Decimal) :=
  let window := s.window ++ [x.1]
  let sum := s.sum + x.1.Price
  let r := evict d x.2 window sum
  if r.1.length > 0 then
    match Decimal.Div r.2 (r.1.length : Decimal) with
    | none => none
    | some v => some (⟨r.1, r.2⟩, some v)
  else
    some (⟨r.1, r.2⟩, none)

/-- The goroutine run on a channel that delivers the ticks of `xs` and is then
closed, each tick processed at the clock reading paired with it. -/
def run (d : Duration) (xs : List (Tick × Time)) : Option (State × List Decimal) :=
  runLoop (step d) init xs

/-- The loop `for len(window) > 0 && clk.Since(window[0].Timestamp) > d` once
more, with every evaluation of `window[0]` written as an indexed read: the one
in the loop condition, made only after `len(window) > 0` holds, and the one in
`sum.Sub(window[0].Price)`.  `none` is an index out of range. -/
def evictChecked (d : Duration) (now : Time) (window : List Tick) (sum : Decimal) :
    Option (List Tick × Decimal) :=
  if _hpos : 0 < window.length then
    match window[0]? with
    | none => none
    | some h0 =>
      if Since now h0.Timestamp > d then
        match window[0]? with
        | none => none
        | some w0 => evictChecked d now (window.drop 1) (sum - w0.Price)
      else some (window, sum)
  else some (window, sum)
termination_by window.length
decreasing_by
  simp only [List.length_drop]
  omega

end WindowedAverage

/-- The values received from `WindowedAverage(ctx, ticks, d, clk)` when the
channel delivers the ticks of `xs` and is closed, and the context is not
cancelled. -/
def WindowedAverage (d : Duration) (xs : List (Tick × Time)) : Option (List Decimal) :=
  (WindowedAverage.run d xs).map Prod.snd

/-! ## Scheduling of the goroutine

The three operators share one control skeleton:

    for {
        select {
        case <-ctx.Done():
            return
        case tick, ok := <-ticks:
            if !ok { return }
            ... body ...
            out <- value
        }
    }

`out` is unbuffered, and the send `out <- value` is a plain statement of the
body, outside the `select`. -/

namespace Goroutine

/-- The statement the goroutine is blocked at. -/
inductive Control where
  /-- Blocked in `select`. -/
  | atSelect
  /-- Blocked in `out <- v`, the body's last statement. -/
  | atSend (v : Decimal)
  /-- Returned; the deferred `close(out)` has run. -/
  | returned
deriving DecidableEq

/-- One event of an execution, as seen from the goroutine. -/
inductive Event (ι : Type) where
  /-- The owner of the context calls `cancel()`: `ctx.Done()` is closed from now on. -/
  | cancel
  /-- The `select` takes `case tick, ok := <-ticks` and receives a value. -/
  | recvTick (x : ι)
  /-- The `select` takes `case tick, ok := <-ticks` on the closed channel (`ok` is false). -/
  | recvClosed
  /-- The `select` takes `case <-ctx.Done()`. -/
  | ctxDone
  /-- The consumer receives the value of the pending `out <- v`. -/
  | deliver

/-- The goroutine's control point and local variables, the state of the
context, and the values the consumer has received from `out`. -/
structure Config (σ : Type) where
  control : Control
  locals : σ
  cancelled : Bool
  /-- Every value received from `out`, in order. -/
  received : List Decimal
  /-- The values received from `out` after `cancel()` was called. -/
  receivedAfterCancel : List Decimal

/-- The goroutine right after `go func()`, blocked in its first `select`. -/
def start {σ : Type} (s : σ) : Config σ := ⟨.atSelect, s, false, [], []⟩

/-- One event.  `none` means the event cannot happen in this configuration, or
the body panics.  A `select` with several ready cases takes any one of them, so
a tick can be received while `ctx.Done()` is closed; `ctxDone` needs a
cancelled context; `deliver` needs a pending send and does not look at the
context. -/
def exec1 {σ ι : Type} (body : σ → ι → Option (σ × Option Decimal)) (c : Config σ) :
    Event ι → Option (Config σ)
  | .cancel => some { c with cancelled := true }
  | .recvTick x =>
    match c.control with
    | .atSelect =>
      match body c.locals x with
      | none => none
      | some (s, some v) => some { c with locals := s, control := .atSend v }
      | some (s, none) => some { c with locals := s }
    | _ => none
  | .recvClosed =>
    match c.control with
    | .atSelect => some { c with control := .returned }
    | _ => none
  | .ctxDone =>
    match c.control with
    | .atSelect => if c.cancelled then some { c with control := .returned } else none
    | _ => none
  | .deliver =>
    match c.control with
    | .atSend v =>
      some { c with
        control := .atSelect
        received := c.received ++ [v]
        receivedAfterCancel :=
          if c.cancelled then c.receivedAfterCancel ++ [v] else c.receivedAfterCancel }
    | _ => none

/-- A schedule of events, run from a configuration. -/
def exec {σ ι : Type} (body : σ → ι → Option (σ × Option Decimal)) :
    Config σ → List (Event ι) → Option (Config σ)
  | c, [] => some c
  | c, e :: es =>
    match exec1 body c e with
    | none => none
    | some c1 => exec body c1 es

/-- The ticks the goroutine receives in a schedule, in order. -/
def ticksReceived {ι : Type} : List (Event ι) → List ι
  | [] => []
  | .recvTick x :: es => x :: ticksReceived es
  | _ :: es => ticksReceived es

/-- The values sent on `out` so far: those received, and the one of a pending send. -/
def sent {σ : Type} (c : Config σ) : List Decimal :=
  match c.control with
  | .atSend v => c.received ++ [v]
  | _ => c.received

end Goroutine

/-! ## Auxiliary notions used in the statements -/

/-- The prices of a list of ticks, in arrival order. -/
def prices (ticks : List Tick) : List Decimal := ticks.map Tick.Price

/-- The arithmetic mean of a list of prices. -/
def mean (l : List Decimal) : Decimal := l.sum / (l.length : Decimal)

/-- The last `n` elements of a list, in order. -/
def lastN {α : Type} (n : Nat) (l : List α) : List α := l.drop (l.length - n)

/-- The window `MovingAverage` holds after appending the price `p` to the window `w`. -/
def MovingAverage.nextWindow (N : Int) (w : List Decimal) (p : Decimal) : List Decimal :=
  if ((w ++ [p]).length : Int) > N then (w ++ [p]).drop 1 else w ++ [p]

/-- The mean of the last `n` prices after each price of `ps`. -/
def MovingAverage.expected (n : Nat) (ps : List Decimal) : List Decimal :=
  (List.range ps.length).map fun k => mean (lastN n (ps.take (k + 1)))

/-- The test of `WindowedAverage`'s eviction loop: the tick is older than `d`
for a clock reading `now`. -/
def WindowedAverage.expired (d : Duration) (now : Time) (t : Tick) : Bool :=
  decide (Since now t.Timestamp > d)

/-- The five ticks of `TestWindowedAverage`: prices 10..50 stamped at 0 s, 20 s, 40 s, 70 s, 110 s. -/
def testTicks : List Tick :=
  [⟨10, 0⟩, ⟨20, 20 * Second⟩, ⟨30, 40 * Second⟩, ⟨40, 70 * Second⟩, ⟨50, 110 * Second⟩]

/-- Each tick of `testTicks` processed while the clock reads the tick's own timestamp. -/
def testAtOwnInstant : List (Tick × Time) := testTicks.map fun t => (t, t.Timestamp)

/-- Each tick of `testTicks` processed after the producer's next `clk.Add`: the
clock reads 20 s, 40 s, 70 s, 110 s, 110 s. -/
def testAfterAdvance : List (Tick × Time) :=
  List.zip testTicks [20 * Second, 40 * Second, 70 * Second, 110 * Second, 110 * Second]

/-! ## The receive loop: general facts -/

theorem runLoop_append {σ ι : Type} (body : σ → ι → Option (σ × Option Decimal))
    (s : σ) (xs ys : List ι) :
    runLoop body s (xs ++ ys) =
      match runLoop body s xs with
      | none => none
      | some (s1, o1) =>
        match runLoop body s1 ys with
        | none => none
        | some (s2, o2) => some (s2, o1 ++ o2) := by
  induction xs generalizing s with
  | nil =>
    simp only [List.nil_append, runLoop]
    cases runLoop body s ys with
    | none => rfl
    | some r => rfl
  | cons x xs ih =>
    have e : runLoop body s (x :: (xs ++ ys)) =
        match body s x with
        | none => none
        | some (s1, o) =>
          match runLoop body s1 (xs ++ ys) with
          | none => none
          | some (s2, vs) => some (s2, o.toList ++ vs) := rfl
    have e2 : runLoop body s (x :: xs) =
        match body s x with
        | none => none
        | some (s1, o) =>
          match runLoop body s1 xs with
          | none => none
          | some (s2, vs) => some (s2, o.toList ++ vs) := rfl
    rw [List.cons_append, e, e2]
    cases hb : body s x with
    | none => rfl
    | some r =>
      obtain ⟨s1, o⟩ := r
      simp only [ih s1]
      cases runLoop body s1 xs with
      | none => rfl
      | some r1 =>
        obtain ⟨s2, o1⟩ := r1
        simp only
        cases runLoop body s2 ys with
        | none => rfl
        | some r2 => simp

theorem runLoop_snoc {σ ι : Type} (body : σ → ι → Option (σ × Option Decimal))
    (s s1 s2 : σ) (xs : List ι) (x : ι) (o1 : List Decimal) (o : Option Decimal)
    (h1 : runLoop body s xs = some (s1, o1)) (h2 : body s1 x = some (s2, o)) :
    runLoop body s (xs ++ [x]) = some (s2, o1 ++ o.toList) := by
  rw [runLoop_append, h1]
  simp [runLoop, h2]

/-! ## Lists -/

theorem lastN_length {α : Type} (n : Nat) (l : List α) : (lastN n l).length = min l.length n := by
  simp [lastN]; omega

theorem lastN_snoc {α : Type} (n : Nat) (hn : 1 ≤ n) (l : List α) (a : α) :
    lastN n (l ++ [a]) =
      if (lastN n l).length + 1 > n then (lastN n l ++ [a]).drop 1 else lastN n l ++ [a] := by
  rw [lastN_length]
  by_cases h : l.length < n
  · have h1 : ¬ (min l.length n + 1 > n) := by omega
    rw [if_neg h1]
    simp only [lastN, List.length_append, List.length_singleton]
    have e1 : l.length + 1 - n = 0 := by omega
    have e2 : l.length - n = 0 := by omega
    rw [e1, e2]; rfl
  · have h1 : min l.length n + 1 > n := by omega
    rw [if_pos h1]
    simp only [lastN, List.length_append, List.length_singleton]
    rw [← List.drop_append_of_le_length (by omega), List.drop_drop]
    congr 1; omega

theorem Div_length (x : Decimal) (l : List Decimal) (h : l ≠ []) :
    Decimal.Div x (l.length : Decimal) = some (x / (l.length : Decimal)) := by
  have : (l.length : Decimal) ≠ 0 := by
    have := List.length_pos.mpr h
    exact_mod_cast this.ne'
  simp [Decimal.Div, this]

/-! ## MovingAverage: the state after any run -/

theorem MovingAverage.nextWindow_ne_nil (N : Int) (hN : 1 ≤ N) (w : List Decimal) (p : Decimal) :
    MovingAverage.nextWindow N w p ≠ [] := by
  unfold MovingAverage.nextWindow
  split
  · rename_i h
    cases w with
    | nil => simp at h; omega
    | cons a w => simp
  · simp

theorem MovingAverage.step_ma_eq (N : Int) (hN : 1 ≤ N) (s : MovingAverage.State)
    (hs : s.sum = s.window.sum) (tick : Tick) :
    MovingAverage.step N s tick =
      some (⟨MovingAverage.nextWindow N s.window tick.Price,
             (MovingAverage.nextWindow N s.window tick.Price).sum⟩,
            some (mean (MovingAverage.nextWindow N s.window tick.Price))) := by
  have hne := MovingAverage.nextWindow_ne_nil N hN s.window tick.Price
  unfold MovingAverage.nextWindow at hne ⊢
  unfold MovingAverage.step
  simp only
  split
  · rename_i h
    rw [if_pos h] at hne
    cases hw : s.window with
    | nil => rw [hw] at h; simp at h; omega
    | cons a w =>
      rw [hw] at hne
      have hsum : s.sum + tick.Price - a = (w ++ [tick.Price]).sum := by
        rw [hs, hw]; simp; ring
      simp only [List.cons_append, List.getElem?_cons_zero, List.drop_succ_cons, List.drop_zero,
        MovingAverage.emit] at hne ⊢
      rw [hsum, Div_length _ _ hne]
      rfl
  · rename_i h
    rw [if_neg h] at hne
    have hsum : s.sum + tick.Price = (s.window ++ [tick.Price]).sum := by
      rw [hs]; simp
    simp only [MovingAverage.emit]
    rw [hsum, Div_length _ _ hne]
    rfl

theorem MovingAverage.nextWindow_lastN (N : Int) (hN : 1 ≤ N) (ps : List Decimal) (p : Decimal) :
    MovingAverage.nextWindow N (lastN N.toNat ps) p = lastN N.toNat (ps ++ [p]) := by
  rw [lastN_snoc _ (by omega), MovingAverage.nextWindow]
  have e : (((lastN N.toNat ps ++ [p]).length : Int) > N) ↔
      ((lastN N.toNat ps).length + 1 > N.toNat) := by
    simp only [List.length_append, List.length_singleton]
    omega
  simp only [e]

theorem MovingAverage.expected_snoc (n : Nat) (ps : List Decimal) (p : Decimal) :
    MovingAverage.expected n (ps ++ [p]) =
      MovingAverage.expected n ps ++ [mean (lastN n (ps ++ [p]))] := by
  simp only [MovingAverage.expected, List.length_append, List.length_singleton, List.range_succ,
    List.map_append, List.map_cons, List.map_nil]
  congr 1
  · apply List.map_congr_left
    intro k hk
    rw [List.mem_range] at hk
    rw [List.take_append_of_le_length (by omega)]
  · have e : List.take (ps.length + 1) (ps ++ [p]) = ps ++ [p] :=
      List.take_of_length_le (by simp)
    rw [e]

theorem MovingAverage.run_eq (N : Int) (hN : 1 ≤ N) (ticks : List Tick) :
    MovingAverage.run N ticks =
      some (⟨lastN N.toNat (prices ticks), (lastN N.toNat (prices ticks)).sum⟩,
            MovingAverage.expected N.toNat (prices ticks)) := by
  induction ticks using List.reverseRecOn with
  | nil => simp [MovingAverage.run, runLoop, MovingAverage.init, lastN, prices, MovingAverage.expected]
  | append_singleton ticks t ih =>
    have hstep := MovingAverage.step_ma_eq N hN
      ⟨lastN N.toNat (prices ticks), (lastN N.toNat (prices ticks)).sum⟩ rfl t
    simp only [MovingAverage.nextWindow_lastN N hN] at hstep
    have := runLoop_snoc (MovingAverage.step N) MovingAverage.init _ _ ticks t _ _ ih hstep
    rw [MovingAverage.run, this]
    simp [prices, MovingAverage.expected_snoc]

/-! ## ExponentialMovingAverage: the state after any run -/

theorem lastN_head (n : Nat) (hn : 1 ≤ n) (ps : List Decimal) (h : n ≤ ps.length) (p : Decimal) :
    (lastN n ps ++ [p])[0]? = some (ps.getD (ps.length - n) 0) := by
  have hlt : ps.length - n < ps.length := by omega
  have hl : 0 < (lastN n ps).length := by rw [lastN_length]; omega
  rw [List.getElem?_append_left hl]
  simp only [lastN, List.getElem?_drop, Nat.add_zero]
  rw [List.getD_eq_getElem?_getD, List.getElem?_eq_getElem hlt]
  rfl

theorem ExponentialMovingAverage.step_ema_eq (N : Int) (hN : 1 ≤ N) (alpha : Decimal)
    (ps : List Decimal) (E : Decimal) (hE : ps = [] → E = 0) (tick : Tick) :
    ExponentialMovingAverage.step N alpha ⟨lastN N.toNat ps, E⟩ tick =
      some (⟨lastN N.toNat (ps ++ [tick.Price]),
              alpha * tick.Price + (1 - alpha) *
                (if (ps.length : Int) + 1 ≤ N then E
                 else E - alpha * ps.getD (ps.length - N.toNat) 0 * (1 - alpha) ^ (N - 1))⟩,
            some (alpha * tick.Price + (1 - alpha) *
                (if (ps.length : Int) + 1 ≤ N then E
                 else E - alpha * ps.getD (ps.length - N.toNat) 0 * (1 - alpha) ^ (N - 1)))) := by
  have hn : 1 ≤ N.toNat := by omega
  have hw := lastN_snoc N.toNat hn ps tick.Price
  have hlen := lastN_length N.toNat ps
  unfold ExponentialMovingAverage.step
  simp only [List.length_append, List.length_singleton, hlen]
  by_cases h : (ps.length : Int) + 1 ≤ N
  · have h1 : ¬ (((min ps.length N.toNat + 1 : Nat) : Int) > N) := by omega
    have h2 : ¬ (min ps.length N.toNat + 1 > N.toNat) := by omega
    rw [if_neg h1, if_pos h]
    rw [hlen, if_neg h2] at hw
    rw [hw]
    by_cases h3 : min ps.length N.toNat + 1 = 1
    · rw [if_pos h3]
      have : ps = [] := by
        apply List.eq_nil_of_length_eq_zero; omega
      rw [hE this]; simp
    · rw [if_neg h3]
  · have h1 : ((min ps.length N.toNat + 1 : Nat) : Int) > N := by omega
    have h2 : min ps.length N.toNat + 1 > N.toNat := by omega
    rw [if_pos h1, if_neg h]
    rw [hlen, if_pos h2] at hw
    rw [lastN_head N.toNat hn ps (by omega), hw]
    rfl

theorem ExponentialMovingAverage.run_spec (N : Int) (hN : 1 ≤ N) (alpha : Decimal)
    (ticks : List Tick) :
    ∃ es : List Decimal,
      ExponentialMovingAverage.run N alpha ticks =
        some (⟨lastN N.toNat (prices ticks), (0 :: es).getD ticks.length 0⟩, es) ∧
      es.length = ticks.length ∧
      ∀ k : Nat, 1 ≤ k → k ≤ ticks.length →
        (0 :: es).getD k 0 =
          alpha * (0 :: prices ticks).getD k 0 + (1 - alpha) *
            (if (k : Int) ≤ N then (0 :: es).getD (k - 1) 0
             else (0 :: es).getD (k - 1) 0
                - alpha * (0 :: prices ticks).getD (k - N.toNat) 0 * (1 - alpha) ^ (N - 1)) := by
  induction ticks using List.reverseRecOn with
  | nil =>
    refine ⟨[], ?_, rfl, ?_⟩
    · simp [ExponentialMovingAverage.run, runLoop, ExponentialMovingAverage.init, lastN, prices]
    · intro k h1 h2; simp at h2; omega
  | append_singleton ticks t ih =>
    obtain ⟨es, hrun, hlen, hrec⟩ := ih
    have hpl : (prices ticks).length = ticks.length := by simp [prices]
    have hE : prices ticks = [] → (0 :: es).getD ticks.length 0 = 0 := by
      intro h
      have : ticks.length = 0 := by rw [← hpl, h]; rfl
      rw [this]; rfl
    have hstep := ExponentialMovingAverage.step_ema_eq N hN alpha (prices ticks) _ hE t
    have hrun' := runLoop_snoc (ExponentialMovingAverage.step N alpha)
      ExponentialMovingAverage.init _ _ ticks t _ _ hrun hstep
    rw [hpl] at hrun'
    set e' := alpha * t.Price + (1 - alpha) *
      (if (ticks.length : Int) + 1 ≤ N then (0 :: es).getD ticks.length 0
       else (0 :: es).getD ticks.length 0
         - alpha * (prices ticks).getD (ticks.length - N.toNat) 0 * (1 - alpha) ^ (N - 1)) with he'
    have hget : ∀ j, j ≤ ticks.length → (0 :: (es ++ [e'])).getD j 0 = (0 :: es).getD j 0 := by
      intro j hj
      rw [← List.cons_append, List.getD_append _ _ _ _ (by simp; omega)]
    have hgetp : ∀ j, j ≤ ticks.length →
        (0 :: prices (ticks ++ [t])).getD j 0 = (0 :: prices ticks).getD j 0 := by
      intro j hj
      have : prices (ticks ++ [t]) = prices ticks ++ [t.Price] := by simp [prices]
      rw [this, ← List.cons_append, List.getD_append _ _ _ _ (by simp [prices]; omega)]
    refine ⟨es ++ [e'], ?_, by simp [hlen], ?_⟩
    · rw [ExponentialMovingAverage.run, hrun']
      have h1 : (0 :: (es ++ [e'])).getD (ticks ++ [t]).length 0 = e' := by
        rw [← List.cons_append, List.getD_append_right _ _ _ _ (by simp [hlen])]
        simp [hlen]
      have h2 : prices (ticks ++ [t]) = prices ticks ++ [t.Price] := by simp [prices]
      rw [h1, h2]
      rfl
    · intro k hk1 hk2
      simp only [List.length_append, List.length_singleton] at hk2
      by_cases hk : k ≤ ticks.length
      · rw [hget k hk, hget (k - 1) (by omega), hgetp k hk, hgetp (k - N.toNat) (by omega)]
        exact hrec k hk1 hk
      · have hk3 : k = ticks.length + 1 := by omega
        subst hk3
        have h1 : (0 :: (es ++ [e'])).getD (ticks.length + 1) 0 = e' := by
          rw [← List.cons_append, List.getD_append_right _ _ _ _ (by simp [hlen])]
          simp [hlen]
        have h2 : (0 :: prices (ticks ++ [t])).getD (ticks.length + 1) 0 = t.Price := by
          have : prices (ticks ++ [t]) = prices ticks ++ [t.Price] := by simp [prices]
          rw [this, ← List.cons_append, List.getD_append_right _ _ _ _ (by simp [prices])]
          simp [prices]
        rw [h1, h2, Nat.add_sub_cancel, hget _ (le_refl _), he']
        have hc : ((ticks.length + 1 : Nat) : Int) = (ticks.length : Int) + 1 := by push_cast; rfl
        rw [hc]
        by_cases hle : (ticks.length : Int) + 1 ≤ N
        · rw [if_pos hle, if_pos hle]
        · rw [if_neg hle, if_neg hle]
          have h3 : ticks.length + 1 - N.toNat = (ticks.length - N.toNat) + 1 := by omega
          rw [hgetp _ (by omega), h3]
          rfl

theorem Round_two_eq (d : Decimal) (m : Int) (h0 : 0 ≤ d)
    (h1 : (m : Decimal) ≤ d * 100 + 1 / 2) (h2 : d * 100 + 1 / 2 < m + 1) :
    Decimal.Round d 2 = m / 100 := by
  have hf : ⌊d * 10 ^ 2 + 1 / 2⌋ = m := by
    rw [Int.floor_eq_iff]
    constructor
    · norm_num; linarith
    · norm_num; linarith
  unfold Decimal.Round
  rw [if_pos h0, hf]
  norm_num

/-! ## WindowedAverage: the state after any run -/

theorem WindowedAverage.evict_fst (d : Duration) (now : Time) (w : List Tick) (sum : Decimal) :
    (WindowedAverage.evict d now w sum).1 = w.dropWhile (WindowedAverage.expired d now) := by
  induction w generalizing sum with
  | nil => rfl
  | cons a w ih =>
    by_cases h : Since now a.Timestamp > d
    · simp [WindowedAverage.evict, WindowedAverage.expired, h, ih]
    · simp [WindowedAverage.evict, WindowedAverage.expired, h]

theorem WindowedAverage.evict_snd (d : Duration) (now : Time) (w : List Tick) (sum : Decimal) :
    (WindowedAverage.evict d now w sum).2 =
      sum - (prices w).sum + (prices (WindowedAverage.evict d now w sum).1).sum := by
  induction w generalizing sum with
  | nil => simp [WindowedAverage.evict, prices]
  | cons a w ih =>
    by_cases h : Since now a.Timestamp > d
    · simp only [WindowedAverage.evict, h, if_true]
      rw [ih]
      simp [prices]; ring
    · simp [WindowedAverage.evict, h]

theorem WindowedAverage.step_wa_eq (d : Duration) (s : WindowedAverage.State)
    (hs : s.sum = (prices s.window).sum) (x : Tick × Time) :
    WindowedAverage.step d s x =
      some (⟨(s.window ++ [x.1]).dropWhile (WindowedAverage.expired d x.2),
             (prices ((s.window ++ [x.1]).dropWhile (WindowedAverage.expired d x.2))).sum⟩,
            if (s.window ++ [x.1]).dropWhile (WindowedAverage.expired d x.2) = [] then none
            else some (mean (prices
              ((s.window ++ [x.1]).dropWhile (WindowedAverage.expired d x.2))))) := by
  have h1 := WindowedAverage.evict_fst d x.2 (s.window ++ [x.1]) (s.sum + x.1.Price)
  have h2 := WindowedAverage.evict_snd d x.2 (s.window ++ [x.1]) (s.sum + x.1.Price)
  have h3 : s.sum + x.1.Price - (prices (s.window ++ [x.1])).sum = 0 := by
    rw [hs]; simp [prices]
  rw [h3, h1, zero_add] at h2
  unfold WindowedAverage.step
  simp only [h1, h2]
  by_cases hW : (s.window ++ [x.1]).dropWhile (WindowedAverage.expired d x.2) = []
  · simp [hW]
  · have hpos : ((s.window ++ [x.1]).dropWhile (WindowedAverage.expired d x.2)).length > 0 :=
      List.length_pos.mpr hW
    have hp : prices ((s.window ++ [x.1]).dropWhile (WindowedAverage.expired d x.2)) ≠ [] := by
      simpa [prices] using hW
    have hd := Div_length
      (prices ((s.window ++ [x.1]).dropWhile (WindowedAverage.expired d x.2))).sum _ hp
    have hl : (prices ((s.window ++ [x.1]).dropWhile (WindowedAverage.expired d x.2))).length
        = ((s.window ++ [x.1]).dropWhile (WindowedAverage.expired d x.2)).length := by
      simp [prices]
    rw [hl] at hd
    rw [if_pos hpos, if_neg hW, hd]
    simp [mean, hl]

theorem WindowedAverage.run_inv (d : Duration) (xs : List (Tick × Time)) :
    ∃ s outs, WindowedAverage.run d xs = some (s, outs) ∧
      s.sum = (prices s.window).sum ∧ s.window <:+ xs.map Prod.fst := by
  induction xs using List.reverseRecOn with
  | nil => exact ⟨WindowedAverage.init, [], rfl, by simp [WindowedAverage.init, prices], by simp [WindowedAverage.init]⟩
  | append_singleton xs x ih =>
    obtain ⟨s, outs, hrun, hsum, hsuf⟩ := ih
    have hstep := WindowedAverage.step_wa_eq d s hsum x
    refine ⟨_, _, runLoop_snoc _ _ _ _ xs x _ _ hrun hstep, rfl, ?_⟩
    simp only [List.map_append, List.map_cons, List.map_nil]
    obtain ⟨pre, hpre⟩ := hsuf
    exact (List.dropWhile_suffix _).trans ⟨pre, by rw [← List.append_assoc, hpre]⟩

theorem dropWhile_expired_eq_filter (d : Duration) (now : Time) (w : List Tick)
    (hw : w.Pairwise (fun a b => a.Timestamp ≤ b.Timestamp)) :
    w.dropWhile (WindowedAverage.expired d now) =
      w.filter (fun t => decide (now - t.Timestamp ≤ d)) := by
  induction w with
  | nil => rfl
  | cons a w ih =>
    rw [List.pairwise_cons] at hw
    by_cases h : Since now a.Timestamp > d
    · have hexp : WindowedAverage.expired d now a = true := by
        simp only [WindowedAverage.expired, decide_eq_true_eq]; exact h
      have h' : ¬ (decide (now - a.Timestamp ≤ d) = true) := by
        simp only [decide_eq_true_eq]; unfold Since at h; exact not_le.mpr h
      rw [List.dropWhile_cons, if_pos hexp, List.filter_cons, if_neg h']
      exact ih hw.2
    · have hexp : ¬ (WindowedAverage.expired d now a = true) := by
        simp only [WindowedAverage.expired, decide_eq_true_eq]; exact h
      have h' : now - a.Timestamp ≤ d := by unfold Since at h; exact not_lt.mp h
      have h'' : decide (now - a.Timestamp ≤ d) = true := by
        simp only [decide_eq_true_eq]; exact h'
      rw [List.dropWhile_cons, if_neg hexp, List.filter_cons, if_pos h'']
      congr 1
      symm
      rw [List.filter_eq_self]
      intro b hb
      have hab : a.Timestamp ≤ b.Timestamp := hw.1 b hb
      simp only [decide_eq_true_eq]
      linarith

theorem filter_within_mono (d : Duration) (now now' : Time) (h : now ≤ now') (l : List Tick) :
    (l.filter (fun t => decide (now - t.Timestamp ≤ d))).filter
        (fun t => decide (now' - t.Timestamp ≤ d)) =
      l.filter (fun t => decide (now' - t.Timestamp ≤ d)) := by
  rw [List.filter_filter]
  apply List.filter_congr
  intro t _
  by_cases h1 : now' - t.Timestamp ≤ d
  · have h2 : now - t.Timestamp ≤ d := by linarith
    simp [h1, h2]
  · simp [h1]

theorem WindowedAverage.run_exact (d : Duration) (xs : List (Tick × Time))
    (hts : (xs.map (fun x => x.1.Timestamp)).Sorted (· ≤ ·))
    (hnow : (xs.map Prod.snd).Sorted (· ≤ ·)) :
    ∃ s outs, WindowedAverage.run d xs = some (s, outs) ∧
      s.sum = (prices s.window).sum ∧ s.window <:+ xs.map Prod.fst ∧
      ∀ now', (∀ x ∈ xs, x.2 ≤ now') →
        s.window.filter (fun t => decide (now' - t.Timestamp ≤ d)) =
          (xs.map Prod.fst).filter (fun t => decide (now' - t.Timestamp ≤ d)) := by
  induction xs using List.reverseRecOn with
  | nil =>
    exact ⟨WindowedAverage.init, [], rfl, by simp [WindowedAverage.init, prices],
      by simp [WindowedAverage.init], by intro _ _; rfl⟩
  | append_singleton xs x ih =>
    have hts' : (xs.map (fun x => x.1.Timestamp)).Sorted (· ≤ ·) := by
      rw [List.map_append] at hts
      exact (List.pairwise_append.mp hts).1
    have hnow' : (xs.map Prod.snd).Sorted (· ≤ ·) := by
      rw [List.map_append] at hnow
      exact (List.pairwise_append.mp hnow).1
    have hle : ∀ y ∈ xs, y.2 ≤ x.2 := by
      intro y hy
      rw [List.map_append] at hnow
      exact (List.pairwise_append.mp hnow).2.2 y.2 (List.mem_map_of_mem _ hy) x.2 (by simp)
    obtain ⟨s, outs, hrun, hsum, hsuf, hfil⟩ := ih hts' hnow'
    have hstep := WindowedAverage.step_wa_eq d s hsum x
    have hsuf' : s.window ++ [x.1] <:+ (xs ++ [x]).map Prod.fst := by
      obtain ⟨pre, hpre⟩ := hsuf
      exact ⟨pre, by rw [← List.append_assoc, hpre]; simp⟩
    have hpw : (s.window ++ [x.1]).Pairwise (fun a b => a.Timestamp ≤ b.Timestamp) := by
      have h1 : ((xs ++ [x]).map Prod.fst).Pairwise (fun a b => a.Timestamp ≤ b.Timestamp) := by
        rw [List.pairwise_map]
        exact List.pairwise_map.mp hts
      exact h1.sublist hsuf'.sublist
    have hW : (s.window ++ [x.1]).dropWhile (WindowedAverage.expired d x.2) =
        ((xs ++ [x]).map Prod.fst).filter (fun t => decide (x.2 - t.Timestamp ≤ d)) := by
      rw [dropWhile_expired_eq_filter d x.2 _ hpw, List.filter_append, hfil x.2 hle]
      simp
    refine ⟨_, _, runLoop_snoc _ _ _ _ xs x _ _ hrun hstep, rfl,
      (List.dropWhile_suffix _).trans hsuf', ?_⟩
    intro now' hx
    have hx' : x.2 ≤ now' := hx x (by simp)
    simp only [hW]
    exact filter_within_mono d x.2 now' hx' _

theorem mean_bounds (l : List Decimal) (h : l ≠ []) :
    l.minimum ≤ ((mean l : Decimal) : WithTop Decimal) ∧
      ((mean l : Decimal) : WithBot Decimal) ≤ l.maximum := by
  have hpos : 0 < l.length := List.length_pos.mpr h
  have hlen : (0 : Decimal) < (l.length : Decimal) := by exact_mod_cast hpos
  constructor
  · rw [← List.coe_minimum_of_length_pos hpos, WithTop.coe_le_coe]
    have hall : ∀ x ∈ l, List.minimum_of_length_pos hpos ≤ x := fun x hx =>
      List.minimum_of_length_pos_le_of_mem hx hpos
    have := List.card_nsmul_le_sum l _ hall
    rw [nsmul_eq_mul] at this
    rw [mean, le_div_iff₀ hlen]
    linarith
  · rw [← List.coe_maximum_of_length_pos hpos, WithBot.coe_le_coe]
    have hall : ∀ x ∈ l, x ≤ List.maximum_of_length_pos hpos := fun x hx =>
      List.le_maximum_of_length_pos_of_mem hx hpos
    have := List.sum_le_card_nsmul l _ hall
    rw [nsmul_eq_mul] at this
    rw [mean, div_le_iff₀ hlen]
    linarith

theorem runLoop_split {σ ι : Type} (body : σ → ι → Option (σ × Option Decimal))
    (s : σ) (xs ys : List ι) (r : σ × List Decimal)
    (h : runLoop body s (xs ++ ys) = some r) :
    ∃ s1 o1 o2, runLoop body s xs = some (s1, o1) ∧ runLoop body s1 ys = some (r.1, o2) ∧
      r.2 = o1 ++ o2 := by
  rw [runLoop_append] at h
  cases h1 : runLoop body s xs with
  | none => rw [h1] at h; simp at h
  | some r1 =>
    obtain ⟨s1, o1⟩ := r1
    rw [h1] at h
    simp only at h
    cases h2 : runLoop body s1 ys with
    | none => rw [h2] at h; simp at h
    | some r2 =>
      obtain ⟨s2, o2⟩ := r2
      rw [h2] at h
      simp only [Option.some.injEq] at h
      subst h
      exact ⟨s1, o1, o2, rfl, h2, rfl⟩

/-! ## Scheduling: the values sent in any execution -/

namespace Goroutine

theorem ticksReceived_append {ι : Type} (es fs : List (Event ι)) :
    ticksReceived (es ++ fs) = ticksReceived es ++ ticksReceived fs := by
  induction es with
  | nil => rfl
  | cons e es ih => cases e <;> simp [ticksReceived, ih]

theorem exec_append {σ ι : Type} (body : σ → ι → Option (σ × Option Decimal))
    (c : Config σ) (es fs : List (Event ι)) :
    exec body c (es ++ fs) =
      match exec body c es with
      | none => none
      | some c1 => exec body c1 fs := by
  induction es generalizing c with
  | nil => rfl
  | cons e es ih =>
    have e1 : exec body c (e :: (es ++ fs)) =
        match exec1 body c e with
        | none => none
        | some c1 => exec body c1 (es ++ fs) := rfl
    have e2 : exec body c (e :: es) =
        match exec1 body c e with
        | none => none
        | some c1 => exec body c1 es := rfl
    rw [List.cons_append, e1, e2]
    cases exec1 body c e with
    | none => rfl
    | some c1 => exact ih c1

theorem exec1_sent {σ ι : Type} (body : σ → ι → Option (σ × Option Decimal)) (s0 : σ)
    (c c1 : Config σ) (e : Event ι) (ts : List ι) (h : exec1 body c e = some c1)
    (hc : runLoop body s0 ts = some (c.locals, sent c)) :
    runLoop body s0 (ts ++ ticksReceived [e]) = some (c1.locals, sent c1) := by
  cases e with
  | cancel =>
    simp only [exec1, Option.some.injEq] at h
    subst h
    simpa [ticksReceived, sent] using hc
  | recvTick x =>
    cases hctl : c.control with
    | atSelect =>
      simp only [exec1, hctl] at h
      cases hb : body c.locals x with
      | none => rw [hb] at h; simp at h
      | some r =>
        obtain ⟨s, o⟩ := r
        rw [hb] at h
        have hs := runLoop_snoc body s0 c.locals s ts x (sent c) o hc hb
        cases o with
        | none =>
          simp only [Option.some.injEq] at h
          subst h
          simpa [ticksReceived, sent, hctl] using hs
        | some v =>
          simp only [Option.some.injEq] at h
          subst h
          simpa [ticksReceived, sent, hctl] using hs
    | atSend v => simp [exec1, hctl] at h
    | returned => simp [exec1, hctl] at h
  | recvClosed =>
    cases hctl : c.control with
    | atSelect =>
      simp only [exec1, hctl, Option.some.injEq] at h
      subst h
      simpa [ticksReceived, sent, hctl] using hc
    | atSend v => simp [exec1, hctl] at h
    | returned => simp [exec1, hctl] at h
  | ctxDone =>
    cases hctl : c.control with
    | atSelect =>
      simp only [exec1, hctl] at h
      by_cases hcan : c.cancelled = true
      · rw [if_pos hcan] at h
        simp only [Option.some.injEq] at h
        subst h
        simpa [ticksReceived, sent, hctl] using hc
      · rw [if_neg hcan] at h; simp at h
    | atSend v => simp [exec1, hctl] at h
    | returned => simp [exec1, hctl] at h
  | deliver =>
    cases hctl : c.control with
    | atSelect => simp [exec1, hctl] at h
    | atSend v =>
      simp only [exec1, hctl, Option.some.injEq] at h
      subst h
      simpa [ticksReceived, sent, hctl] using hc
    | returned => simp [exec1, hctl] at h

/-- In every execution, whenever and wherever the context is cancelled, the values sent on
`out` are the values the loop computes for the ticks received so far. -/
theorem exec_sent {σ ι : Type} (body : σ → ι → Option (σ × Option Decimal)) (s0 : σ)
    (es : List (Event ι)) (c : Config σ) (h : exec body (start s0) es = some c) :
    runLoop body s0 (ticksReceived es) = some (c.locals, sent c) := by
  induction es using List.reverseRecOn generalizing c with
  | nil =>
    simp only [exec, Option.some.injEq] at h
    subst h
    rfl
  | append_singleton es e ih =>
    rw [exec_append] at h
    cases h1 : exec body (start s0) es with
    | none => rw [h1] at h; simp at h
    | some c1 =>
      rw [h1] at h
      simp only [exec] at h
      cases h2 : exec1 body c1 e with
      | none => rw [h2] at h; simp at h
      | some c2 =>
        rw [h2] at h
        simp only [Option.some.injEq] at h
        subst h
        rw [ticksReceived_append]
        exact exec1_sent body s0 c1 c2 e _ h2 (ih c1 h1)

theorem received_sent {σ : Type} (c : Goroutine.Config σ) :
    c.received <+: Goroutine.sent c := by
  unfold Goroutine.sent
  cases c.control with
  | atSelect => exact List.prefix_refl _
  | atSend v => exact List.prefix_append _ _
  | returned => exact List.prefix_refl _

theorem received_eq_sent {σ : Type} (c : Goroutine.Config σ) :
    c.control = .returned → c.received = Goroutine.sent c := by
  intro h
  simp [Goroutine.sent, h]

end Goroutine

/-! ## The claims -/

/-- C1: for every window size `N ≥ 1` and every finite sequence of ticks, `MovingAverage`
emits exactly one value per tick, and the `k`-th emitted value (here `outs[k]`, counting from
0, so it is the value for tick `k + 1`) is the sum of the last `min (k + 1) N` prices divided
by `min (k + 1) N`; during the initial fill the divisor is the number of ticks seen, not `N`.
For `N = 3` and prices 10, 20, 30, 40, 50 the values are 10, 15, 20, 30, 40. -/
theorem C1_movingAverage_mean (N : Int) (hN : 1 ≤ N) (ticks : List Tick) :
    (∃ outs, MovingAverage N ticks = some outs ∧ outs.length = ticks.length ∧
      ∀ k, k < ticks.length →
        outs[k]? = some
          ((((prices ticks).take (k + 1)).drop (k + 1 - min (k + 1) N.toNat)).sum
            / ((min (k + 1) N.toNat : Nat) : Decimal))) ∧
    (∀ t1 t2 t3 t4 t5 : Time,
      MovingAverage 3 [⟨10, t1⟩, ⟨20, t2⟩, ⟨30, t3⟩, ⟨40, t4⟩, ⟨50, t5⟩]
        = some [10, 15, 20, 30, 40]) := by
  refine ⟨⟨MovingAverage.expected N.toNat (prices ticks), ?_, ?_, ?_⟩, ?_⟩
  · simp [MovingAverage, MovingAverage.run_eq N hN]
  · simp [MovingAverage.expected, prices]
  · intro k hk
    have hlen : ((prices ticks).take (k + 1)).length = k + 1 := by
      simp [prices]; omega
    have hk' : k < (prices ticks).length := by simpa [prices] using hk
    simp only [MovingAverage.expected, List.getElem?_map, List.getElem?_range hk', Option.map_some',
      mean, lastN, hlen]
    have e1 : k + 1 - min (k + 1) N.toNat = k + 1 - N.toNat := by omega
    rw [e1]
    congr 3
    simp [hlen]; omega
  · intro t1 t2 t3 t4 t5
    simp [MovingAverage, MovingAverage.run, runLoop, MovingAverage.step, MovingAverage.emit,
      MovingAverage.init, Decimal.Div]
    norm_num

/-- C1 at `N = 3` on the five test ticks: five values are emitted and the fourth is 30, the
mean of 20, 30, 40. -/
theorem C1_movingAverage_mean_witness :
    (1 : Int) ≤ 3 ∧
    ∃ outs, MovingAverage 3 testTicks = some outs ∧ outs.length = 5 ∧ outs[3]? = some 30 := by
  refine ⟨by decide, ?_⟩
  obtain ⟨outs, h1, h2, h3⟩ := (C1_movingAverage_mean 3 (by decide) testTicks).1
  refine ⟨outs, h1, by simpa [testTicks] using h2, ?_⟩
  have := h3 3 (by simp [testTicks])
  rw [this]
  simp [prices, testTicks]
  norm_num

/-- C2: for every `N ≥ 1`, every smoothing factor and every tick sequence,
`ExponentialMovingAverage` emits one value per tick, and with `e_0 = 0` (here
`(0 :: es).getD k 0` is `e_k` and `(0 :: prices ticks).getD k 0` is `p_k`, for `k` counted
from 1) the values satisfy `e_k = alpha * p_k + (1 - alpha) * e_(k-1)` for `k ≤ N` and
`e_k = alpha * p_k + (1 - alpha) * (e_(k-1) - alpha * p_(k-N) * (1 - alpha)^(N-1))` for
`k > N`.  For `N = 3`, `alpha = 0.75` and prices 10, 20, 30, 40, 50 the values rounded to
two places are 7.50, 16.88, 26.72, 36.56, 46.41. -/
theorem C2_ema_recurrence (N : Int) (hN : 1 ≤ N) (alpha : Decimal) (ticks : List Tick) :
    (∃ es, ExponentialMovingAverage N alpha ticks = some es ∧ es.length = ticks.length ∧
      ∀ k : Nat, 1 ≤ k → k ≤ ticks.length →
        (0 :: es).getD k 0 =
          if (k : Int) ≤ N then
            alpha * (0 :: prices ticks).getD k 0 + (1 - alpha) * (0 :: es).getD (k - 1) 0
          else
            alpha * (0 :: prices ticks).getD k 0 + (1 - alpha) *
              ((0 :: es).getD (k - 1) 0
                - alpha * (0 :: prices ticks).getD (k - N.toNat) 0 * (1 - alpha) ^ (N - 1))) ∧
    (∀ t1 t2 t3 t4 t5 : Time, ∃ es,
      ExponentialMovingAverage 3 0.75 [⟨10, t1⟩, ⟨20, t2⟩, ⟨30, t3⟩, ⟨40, t4⟩, ⟨50, t5⟩]
        = some es ∧
      es.map (fun v => Decimal.Round v 2) = [7.50, 16.88, 26.72, 36.56, 46.41]) := by
  constructor
  · obtain ⟨es, hrun, hlen, hrec⟩ := ExponentialMovingAverage.run_spec N hN alpha ticks
    refine ⟨es, by simp [ExponentialMovingAverage, hrun], hlen, ?_⟩
    intro k hk1 hk2
    rw [hrec k hk1 hk2]
    split_ifs <;> rfl
  · intro t1 t2 t3 t4 t5
    refine ⟨[7.5, 16.875, 26.71875, 36.5625, 46.40625], ?_, ?_⟩
    · simp [ExponentialMovingAverage, ExponentialMovingAverage.run, runLoop,
        ExponentialMovingAverage.step, ExponentialMovingAverage.init,
        ExponentialMovingAverage.removalFactor, Decimal.Pow]
      norm_num
    · simp only [List.map_cons, List.map_nil]
      rw [Round_two_eq 7.5 750 (by norm_num) (by norm_num) (by norm_num),
        Round_two_eq 16.875 1688 (by norm_num) (by norm_num) (by norm_num),
        Round_two_eq 26.71875 2672 (by norm_num) (by norm_num) (by norm_num),
        Round_two_eq 36.5625 3656 (by norm_num) (by norm_num) (by norm_num),
        Round_two_eq 46.40625 4641 (by norm_num) (by norm_num) (by norm_num)]
      norm_num

/-- C2 at `N = 3`, `alpha = 0.75` on the five test ticks: five values are emitted, and the
fourth one is computed from the third with the price 10 of the evicted first tick. -/
theorem C2_ema_recurrence_witness :
    (1 : Int) ≤ 3 ∧
    ∃ es, ExponentialMovingAverage 3 0.75 testTicks = some es ∧ es.length = 5 ∧
      (0 :: es).getD 4 0 =
        0.75 * 40 + (1 - 0.75) * ((0 :: es).getD 3 0 - 0.75 * 10 * (1 - 0.75) ^ 2) := by
  refine ⟨by decide, ?_⟩
  obtain ⟨es, h1, h2, h3⟩ := (C2_ema_recurrence 3 (by decide) 0.75 testTicks).1
  refine ⟨es, h1, by simpa [testTicks] using h2, ?_⟩
  have := h3 4 (by decide) (by simp [testTicks])
  rw [this]
  simp [prices, testTicks]
  norm_num

/-- C3: for every duration `d`, every tick sequence with non-decreasing timestamps and every
non-decreasing sequence of clock readings (one per processed tick), after the last tick
(`tick`, processed at the reading `now`) the retained window is exactly the received ticks
`t` with `now - t.Timestamp ≤ d`; if that window is non-empty the value emitted for the tick
is the arithmetic mean of their prices, and otherwise nothing is emitted for it. -/
theorem C3_windowedAverage_window_mean (d : Duration) (xs : List (Tick × Time))
    (tick : Tick) (now : Time)
    (hts : ((xs ++ [(tick, now)]).map (fun x => x.1.Timestamp)).Sorted (· ≤ ·))
    (hnow : ((xs ++ [(tick, now)]).map Prod.snd).Sorted (· ≤ ·)) :
    ∃ s outs s' o,
      WindowedAverage.run d xs = some (s, outs) ∧
      WindowedAverage.step d s (tick, now) = some (s', o) ∧
      WindowedAverage d (xs ++ [(tick, now)]) = some (outs ++ o.toList) ∧
      s'.window = (xs.map Prod.fst ++ [tick]).filter (fun t => decide (now - t.Timestamp ≤ d)) ∧
      o = if s'.window = [] then none
          else some ((prices s'.window).sum / (s'.window.length : Decimal)) := by
  have hts' : (xs.map (fun x => x.1.Timestamp)).Sorted (· ≤ ·) := by
    rw [List.map_append] at hts
    exact (List.pairwise_append.mp hts).1
  have hnow' : (xs.map Prod.snd).Sorted (· ≤ ·) := by
    rw [List.map_append] at hnow
    exact (List.pairwise_append.mp hnow).1
  obtain ⟨s, outs, hrun, hsum, hsuf, _⟩ := WindowedAverage.run_exact d xs hts' hnow'
  obtain ⟨s2, outs2, hrun2, _, _, hfil⟩ := WindowedAverage.run_exact d _ hts hnow
  have hstep := WindowedAverage.step_wa_eq d s hsum (tick, now)
  have hsnoc := runLoop_snoc _ _ _ _ xs (tick, now) _ _ hrun hstep
  have heq := hrun2.symm.trans hsnoc
  simp only [Option.some.injEq, Prod.mk.injEq] at heq
  have hW := hfil now (by
    intro x hx
    rcases List.mem_append.mp hx with h | h
    · rw [List.map_append] at hnow
      exact (List.pairwise_append.mp hnow).2.2 x.2 (List.mem_map_of_mem _ h) now (by simp)
    · simp at h; rw [h])
  rw [heq.1] at hW
  simp only at hW
  have hself : ((s.window ++ [tick]).dropWhile (WindowedAverage.expired d now)).filter
      (fun t => decide (now - t.Timestamp ≤ d)) =
      (s.window ++ [tick]).dropWhile (WindowedAverage.expired d now) := by
    have hsuf' : s.window ++ [tick] <:+ (xs ++ [(tick, now)]).map Prod.fst := by
      obtain ⟨pre, hpre⟩ := hsuf
      exact ⟨pre, by rw [← List.append_assoc, hpre]; simp⟩
    have h1 : ((xs ++ [(tick, now)]).map Prod.fst).Pairwise
        (fun a b => a.Timestamp ≤ b.Timestamp) := by
      rw [List.pairwise_map]
      exact List.pairwise_map.mp hts
    have h2 : ((s.window ++ [tick]).dropWhile (WindowedAverage.expired d now)).Pairwise
        (fun a b => a.Timestamp ≤ b.Timestamp) :=
      h1.sublist ((List.dropWhile_suffix _).trans hsuf').sublist
    rw [← dropWhile_expired_eq_filter d now _ h2, List.dropWhile_idempotent]
  refine ⟨s, outs, _, _, hrun, hstep, ?_, ?_, ?_⟩
  · simp [WindowedAverage, WindowedAverage.run, hsnoc]
  · simp only
    rw [← hself, hW]; simp
  · simp only [mean, prices, List.length_map]

/-- C3 on the five test ticks, each processed after the clock's next advance: at the fifth
tick (clock at 110 s) the window is the ticks stamped within the last 60 s. -/
theorem C3_windowedAverage_window_mean_witness :
    ((testAfterAdvance.map (fun x => x.1.Timestamp)).Sorted (· ≤ ·)) ∧
    ((testAfterAdvance.map Prod.snd).Sorted (· ≤ ·)) ∧
    ∃ s outs s' o,
      WindowedAverage.run Minute (testAfterAdvance.take 4) = some (s, outs) ∧
      WindowedAverage.step Minute s (⟨50, 110 * Second⟩, 110 * Second) = some (s', o) ∧
      WindowedAverage Minute testAfterAdvance = some (outs ++ o.toList) ∧
      s'.window = testTicks.filter (fun t => decide (110 * Second - t.Timestamp ≤ Minute)) ∧
      o = if s'.window = [] then none
          else some ((prices s'.window).sum / (s'.window.length : Decimal)) :=
  have h1 : ((testAfterAdvance.map (fun x => x.1.Timestamp)).Sorted (· ≤ ·)) := by
    simp [testAfterAdvance, testTicks, Second]
  have h2 : ((testAfterAdvance.map Prod.snd).Sorted (· ≤ ·)) := by
    simp [testAfterAdvance, testTicks, Second]
  ⟨h1, h2, C3_windowedAverage_window_mean Minute (testAfterAdvance.take 4)
    ⟨50, 110 * Second⟩ (110 * Second) h1 h2⟩

/-- C4: in `MovingAverage` (for `N ≥ 1`) and in `WindowedAverage` (for every duration and all
clock readings), after every processed tick the accumulator `sum` equals the sum of the
prices of the elements held in `window`, exactly. -/
theorem C4_running_sum_is_window_sum (N : Int) (hN : 1 ≤ N) (ticks : List Tick)
    (d : Duration) (xs : List (Tick × Time)) :
    (∃ s outs, MovingAverage.run N ticks = some (s, outs) ∧ s.sum = s.window.sum) ∧
    (∃ s outs, WindowedAverage.run d xs = some (s, outs) ∧
      s.sum = (s.window.map Tick.Price).sum) := by
  refine ⟨⟨_, _, MovingAverage.run_eq N hN ticks, rfl⟩, ?_⟩
  obtain ⟨s, outs, hrun, hsum, _⟩ := WindowedAverage.run_inv d xs
  exact ⟨s, outs, hrun, hsum⟩

/-- C4 at `N = 2` on the five test ticks, and at `d` one minute on the same ticks. -/
theorem C4_running_sum_is_window_sum_witness :
    (1 : Int) ≤ 2 ∧
    (∃ s outs, MovingAverage.run 2 testTicks = some (s, outs) ∧ s.sum = s.window.sum) ∧
    (∃ s outs, WindowedAverage.run Minute testAtOwnInstant = some (s, outs) ∧
      s.sum = (s.window.map Tick.Price).sum) :=
  ⟨by decide, C4_running_sum_is_window_sum 2 (by decide) testTicks Minute testAtOwnInstant⟩

/-- C5: for each of the three operators the values emitted for earlier ticks do not depend
on later ticks: the output sequence for `xs ++ ys` begins with the complete output sequence
for `xs`.  Moreover, in every execution of the goroutine, at whatever point of the schedule
the context is cancelled, the values the consumer has received are an initial segment of
the output sequence for the ticks the goroutine has received, and are the whole of it once
the goroutine has returned: stopping before tick `k` is received leaves exactly the values
for ticks `1..k-1`. -/
theorem C5_outputs_of_earlier_ticks (N : Int) (hN : 1 ≤ N) (alpha : Decimal) (d : Duration)
    (xs ys : List Tick) (cxs cys : List (Tick × Time)) :
    (∃ o1 o2, MovingAverage N xs = some o1 ∧ MovingAverage N (xs ++ ys) = some (o1 ++ o2)) ∧
    (∃ o1 o2, ExponentialMovingAverage N alpha xs = some o1 ∧
      ExponentialMovingAverage N alpha (xs ++ ys) = some (o1 ++ o2)) ∧
    (∃ o1 o2, WindowedAverage d cxs = some o1 ∧
      WindowedAverage d (cxs ++ cys) = some (o1 ++ o2)) ∧
    (∀ es c, Goroutine.exec (MovingAverage.step N) (Goroutine.start MovingAverage.init) es
        = some c →
      ∃ outs, MovingAverage N (Goroutine.ticksReceived es) = some outs ∧
        c.received <+: outs ∧ (c.control = .returned → c.received = outs)) ∧
    (∀ es c, Goroutine.exec (ExponentialMovingAverage.step N alpha)
        (Goroutine.start ExponentialMovingAverage.init) es = some c →
      ∃ outs, ExponentialMovingAverage N alpha (Goroutine.ticksReceived es) = some outs ∧
        c.received <+: outs ∧ (c.control = .returned → c.received = outs)) ∧
    (∀ es c, Goroutine.exec (WindowedAverage.step d) (Goroutine.start WindowedAverage.init) es
        = some c →
      ∃ outs, WindowedAverage d (Goroutine.ticksReceived es) = some outs ∧
        c.received <+: outs ∧ (c.control = .returned → c.received = outs)) := by
  refine ⟨?_, ?_, ?_, ?_, ?_, ?_⟩
  · have h := MovingAverage.run_eq N hN (xs ++ ys)
    obtain ⟨s1, o1, o2, h1, _, h3⟩ := runLoop_split _ _ xs ys _ h
    refine ⟨o1, o2, ?_, ?_⟩
    · simp [MovingAverage, MovingAverage.run, h1]
    · simp only [MovingAverage, h, Option.map_some']
      rw [← h3]
  · obtain ⟨es, h, _, _⟩ := ExponentialMovingAverage.run_spec N hN alpha (xs ++ ys)
    obtain ⟨s1, o1, o2, h1, _, h3⟩ := runLoop_split _ _ xs ys _ h
    refine ⟨o1, o2, ?_, ?_⟩
    · simp [ExponentialMovingAverage, ExponentialMovingAverage.run, h1]
    · simp only [ExponentialMovingAverage, h, Option.map_some']
      rw [← h3]
  · obtain ⟨s, outs, h, _, _⟩ := WindowedAverage.run_inv d (cxs ++ cys)
    obtain ⟨s1, o1, o2, h1, _, h3⟩ := runLoop_split _ _ cxs cys _ h
    refine ⟨o1, o2, ?_, ?_⟩
    · simp [WindowedAverage, WindowedAverage.run, h1]
    · simp only [WindowedAverage, h, Option.map_some']
      rw [← h3]

  · intro es c h
    have hs := Goroutine.exec_sent _ _ es c h
    exact ⟨_, by simp [MovingAverage, MovingAverage.run, hs], Goroutine.received_sent c,
      Goroutine.received_eq_sent c⟩
  · intro es c h
    have hs := Goroutine.exec_sent _ _ es c h
    exact ⟨_, by simp [ExponentialMovingAverage, ExponentialMovingAverage.run, hs],
      Goroutine.received_sent c, Goroutine.received_eq_sent c⟩
  · intro es c h
    have hs := Goroutine.exec_sent _ _ es c h
    exact ⟨_, by simp [WindowedAverage, WindowedAverage.run, hs], Goroutine.received_sent c,
      Goroutine.received_eq_sent c⟩

/-- C5 at `N = 3`, `alpha = 0.75`, one minute, on the first three and the last two test
ticks. -/
theorem C5_outputs_of_earlier_ticks_witness :
    (1 : Int) ≤ 3 ∧
    (∃ o1 o2, MovingAverage 3 (testTicks.take 3) = some o1 ∧
      MovingAverage 3 (testTicks.take 3 ++ testTicks.drop 3) = some (o1 ++ o2)) ∧
    (∃ o1 o2, ExponentialMovingAverage 3 0.75 (testTicks.take 3) = some o1 ∧
      ExponentialMovingAverage 3 0.75 (testTicks.take 3 ++ testTicks.drop 3)
        = some (o1 ++ o2)) ∧
    (∃ o1 o2, WindowedAverage Minute (testAfterAdvance.take 3) = some o1 ∧
      WindowedAverage Minute (testAfterAdvance.take 3 ++ testAfterAdvance.drop 3)
        = some (o1 ++ o2)) :=
  have h := C5_outputs_of_earlier_ticks 3 (by decide) 0.75 Minute (testTicks.take 3)
    (testTicks.drop 3) (testAfterAdvance.take 3) (testAfterAdvance.drop 3)
  ⟨by decide, h.1, h.2.1, h.2.2.1⟩

/-- C6 evaluated on the code: executions in which a value is received from `out` after
`cancel()`.  First, `MovingAverage` with `N = 3` in the consumer-side cancellation test: the
goroutine receives the fourth tick before the consumer calls `cancel()`, blocks in
`out <- 30`, and the consumer receives 30 after cancelling.  Second, the same test with
`cancel()` called before the fourth tick is taken: the `select` still takes the tick.
Third and fourth, `ExponentialMovingAverage` and `WindowedAverage` deliver the value of an
in-flight tick after cancellation. -/
theorem C6_value_delivered_after_cancel :
    (∃ c, Goroutine.exec (MovingAverage.step 3) (Goroutine.start MovingAverage.init)
        [.recvTick ⟨10, 0⟩, .deliver, .recvTick ⟨20, 0⟩, .deliver, .recvTick ⟨30, 0⟩, .deliver,
          .recvTick ⟨40, 0⟩, .cancel, .deliver] = some c ∧
      c.received = [10, 15, 20, 30] ∧ c.receivedAfterCancel = [30]) ∧
    (∃ c, Goroutine.exec (MovingAverage.step 3) (Goroutine.start MovingAverage.init)
        [.recvTick ⟨10, 0⟩, .deliver, .recvTick ⟨20, 0⟩, .deliver, .recvTick ⟨30, 0⟩, .deliver,
          .cancel, .recvTick ⟨40, 0⟩, .deliver] = some c ∧
      c.received = [10, 15, 20, 30] ∧ c.receivedAfterCancel = [30]) ∧
    (∃ c, Goroutine.exec (ExponentialMovingAverage.step 3 0.75) (Goroutine.start ExponentialMovingAverage.init)
        [.recvTick ⟨10, 0⟩, .cancel, .deliver] = some c ∧
      c.received = [7.5] ∧ c.receivedAfterCancel = [7.5]) ∧
    (∃ c, Goroutine.exec (WindowedAverage.step Minute) (Goroutine.start WindowedAverage.init)
        [.recvTick (⟨10, 0⟩, 0), .cancel, .deliver] = some c ∧
      c.received = [10] ∧ c.receivedAfterCancel = [10]) := by
  refine ⟨?_, ?_, ?_, ?_⟩
  · simp [Goroutine.exec, Goroutine.exec1, Goroutine.start, MovingAverage.step, MovingAverage.emit, MovingAverage.init,
      Decimal.Div]
    norm_num
  · simp [Goroutine.exec, Goroutine.exec1, Goroutine.start, MovingAverage.step, MovingAverage.emit, MovingAverage.init,
      Decimal.Div]
    norm_num
  · simp [Goroutine.exec, Goroutine.exec1, Goroutine.start, ExponentialMovingAverage.step, ExponentialMovingAverage.init]
    norm_num
  · simp [Goroutine.exec, Goroutine.exec1, Goroutine.start, WindowedAverage.step, WindowedAverage.evict,
      WindowedAverage.init, Decimal.Div, Since, Minute, Second]

/-- C7: at every emission of `MovingAverage` (`N ≥ 1`) and of `WindowedAverage`, the emitted
value lies between the minimum and the maximum of the prices held in the window at that
emission. -/
theorem C7_emitted_value_within_window_bounds (N : Int) (hN : 1 ≤ N) (ticks : List Tick)
    (tick : Tick) (d : Duration) (xs : List (Tick × Time)) (x : Tick × Time) :
    (∃ s outs s' v, MovingAverage.run N ticks = some (s, outs) ∧
      MovingAverage.step N s tick = some (s', some v) ∧
      s'.window.minimum ≤ (v : WithTop Decimal) ∧ (v : WithBot Decimal) ≤ s'.window.maximum) ∧
    (∃ s outs s' o, WindowedAverage.run d xs = some (s, outs) ∧
      WindowedAverage.step d s x = some (s', o) ∧
      ∀ v, o = some v →
        (s'.window.map Tick.Price).minimum ≤ (v : WithTop Decimal) ∧
        (v : WithBot Decimal) ≤ (s'.window.map Tick.Price).maximum) := by
  constructor
  · have hstep := MovingAverage.step_ma_eq N hN
      ⟨lastN N.toNat (prices ticks), (lastN N.toNat (prices ticks)).sum⟩ rfl tick
    have hb := mean_bounds _ (MovingAverage.nextWindow_ne_nil N hN
      (lastN N.toNat (prices ticks)) tick.Price)
    exact ⟨_, _, _, _, MovingAverage.run_eq N hN ticks, hstep, hb.1, hb.2⟩
  · obtain ⟨s, outs, hrun, hsum, _⟩ := WindowedAverage.run_inv d xs
    refine ⟨s, outs, _, _, hrun, WindowedAverage.step_wa_eq d s hsum x, ?_⟩
    intro v hv
    by_cases hW : (s.window ++ [x.1]).dropWhile (WindowedAverage.expired d x.2) = []
    · rw [if_pos hW] at hv; cases hv
    · rw [if_neg hW] at hv
      simp only [Option.some.injEq] at hv
      subst hv
      exact mean_bounds _ (by simpa [prices] using hW)

/-- C7 at `N = 3` after four test ticks, for the fifth. -/
theorem C7_emitted_value_within_window_bounds_witness :
    (1 : Int) ≤ 3 ∧
    (∃ s outs s' v, MovingAverage.run 3 (testTicks.take 4) = some (s, outs) ∧
      MovingAverage.step 3 s ⟨50, 110 * Second⟩ = some (s', some v) ∧
      s'.window.minimum ≤ (v : WithTop Decimal) ∧ (v : WithBot Decimal) ≤ s'.window.maximum) ∧
    (∃ s outs s' o, WindowedAverage.run Minute (testAfterAdvance.take 4) = some (s, outs) ∧
      WindowedAverage.step Minute s (⟨50, 110 * Second⟩, 110 * Second) = some (s', o) ∧
      ∀ v, o = some v →
        (s'.window.map Tick.Price).minimum ≤ (v : WithTop Decimal) ∧
        (v : WithBot Decimal) ≤ (s'.window.map Tick.Price).maximum) :=
  ⟨by decide, C7_emitted_value_within_window_bounds 3 (by decide) (testTicks.take 4)
    ⟨50, 110 * Second⟩ Minute (testAfterAdvance.take 4) (⟨50, 110 * Second⟩, 110 * Second)⟩

/-- C8: for every `N ≥ 1` and every tick sequence, after the `k`-th tick the window held by
`MovingAverage`, and likewise the window held by `ExponentialMovingAverage`, has length
`min k N` and consists of the last `min k N` prices in arrival order. -/
theorem C8_window_is_last_N (N : Int) (hN : 1 ≤ N) (alpha : Decimal) (ticks : List Tick) :
    (∃ s outs, MovingAverage.run N ticks = some (s, outs) ∧
      s.window.length = min ticks.length N.toNat ∧
      s.window = (ticks.map Tick.Price).drop (ticks.length - min ticks.length N.toNat)) ∧
    (∃ s outs, ExponentialMovingAverage.run N alpha ticks = some (s, outs) ∧
      s.window.length = min ticks.length N.toNat ∧
      s.window = (ticks.map Tick.Price).drop (ticks.length - min ticks.length N.toNat)) := by
  have hl : (lastN N.toNat (prices ticks)).length = min ticks.length N.toNat := by
    rw [lastN_length]; simp [prices]
  have hw : lastN N.toNat (prices ticks) =
      (ticks.map Tick.Price).drop (ticks.length - min ticks.length N.toNat) := by
    simp only [lastN, prices, List.length_map]
    congr 1; omega
  refine ⟨⟨_, _, MovingAverage.run_eq N hN ticks, hl, hw⟩, ?_⟩
  obtain ⟨es, h, _, _⟩ := ExponentialMovingAverage.run_spec N hN alpha ticks
  exact ⟨_, _, h, hl, hw⟩

/-- C8 at `N = 3`, `alpha = 0.75` on the five test ticks. -/
theorem C8_window_is_last_N_witness :
    (1 : Int) ≤ 3 ∧
    (∃ s outs, MovingAverage.run 3 testTicks = some (s, outs) ∧
      s.window.length = 3 ∧ s.window = [30, 40, 50]) ∧
    (∃ s outs, ExponentialMovingAverage.run 3 0.75 testTicks = some (s, outs) ∧
      s.window.length = 3 ∧ s.window = [30, 40, 50]) := by
  obtain ⟨⟨s, outs, h1, h2, h3⟩, ⟨s', outs', h4, h5, h6⟩⟩ :=
    C8_window_is_last_N 3 (by decide) 0.75 testTicks
  exact ⟨by decide, ⟨s, outs, h1, by simpa [testTicks] using h2, by simpa [testTicks] using h3⟩,
    ⟨s', outs', h4, by simpa [testTicks] using h5, by simpa [testTicks] using h6⟩⟩

/-- C9 fails as stated: with `d` one minute, a tick stamped 100 s followed by a tick stamped
0 s, both processed while the clock reads 100 s, leave the second tick in the window although
100 s have elapsed since its timestamp; the loop only looks at the head. -/
theorem C9_counterexample :
    ∃ s outs,
      WindowedAverage.run Minute
        [(⟨1, 100 * Second⟩, 100 * Second), (⟨2, 0⟩, 100 * Second)] = some (s, outs) ∧
      ∃ e ∈ s.window, ¬ (Since (100 * Second) e.Timestamp ≤ Minute) := by
  refine ⟨⟨[⟨1, 100 * Second⟩, ⟨2, 0⟩], 3⟩, [1, 3 / 2], ?_, ⟨2, 0⟩, by simp, ?_⟩
  · simp [WindowedAverage.run, runLoop, WindowedAverage.step, WindowedAverage.evict,
      WindowedAverage.init, Decimal.Div, Since, Minute, Second]
    norm_num
  · simp [Since, Minute, Second]

/-- C9, amended: for every duration `d`, every tick sequence with non-decreasing timestamps
and every sequence of clock readings, after `WindowedAverage` has processed a tick every
element retained in its window satisfies `clk.Since(element.Timestamp) ≤ d` at the clock
reading at which that tick was processed. -/
theorem C9_retained_within_duration (d : Duration) (xs : List (Tick × Time))
    (tick : Tick) (now : Time)
    (hts : ((xs ++ [(tick, now)]).map (fun x => x.1.Timestamp)).Sorted (· ≤ ·)) :
    ∃ s outs, WindowedAverage.run d (xs ++ [(tick, now)]) = some (s, outs) ∧
      ∀ e ∈ s.window, Since now e.Timestamp ≤ d := by
  obtain ⟨s, outs, hrun, hsum, hsuf⟩ := WindowedAverage.run_inv d xs
  have hstep := WindowedAverage.step_wa_eq d s hsum (tick, now)
  refine ⟨_, _, runLoop_snoc _ _ _ _ xs (tick, now) _ _ hrun hstep, ?_⟩
  have hsuf' : s.window ++ [tick] <:+ (xs ++ [(tick, now)]).map Prod.fst := by
    obtain ⟨pre, hpre⟩ := hsuf
    exact ⟨pre, by rw [← List.append_assoc, hpre]; simp⟩
  have h1 : ((xs ++ [(tick, now)]).map Prod.fst).Pairwise
      (fun a b => a.Timestamp ≤ b.Timestamp) := by
    rw [List.pairwise_map]
    exact List.pairwise_map.mp hts
  have h2 : (s.window ++ [tick]).Pairwise (fun a b => a.Timestamp ≤ b.Timestamp) :=
    h1.sublist hsuf'.sublist
  intro e he
  simp only at he
  rw [dropWhile_expired_eq_filter d now _ h2, List.mem_filter] at he
  simpa [Since] using he.2

/-- C9, amended, on the five test ticks, each processed after the clock's next advance. -/
theorem C9_retained_within_duration_witness :
    ((testAfterAdvance.map (fun x => x.1.Timestamp)).Sorted (· ≤ ·)) ∧
    ∃ s outs, WindowedAverage.run Minute testAfterAdvance = some (s, outs) ∧
      ∀ e ∈ s.window, Since (110 * Second) e.Timestamp ≤ Minute :=
  have h : ((testAfterAdvance.map (fun x => x.1.Timestamp)).Sorted (· ≤ ·)) := by
    simp [testAfterAdvance, testTicks, Second]
  ⟨h, C9_retained_within_duration Minute
    (List.zip (testTicks.take 4) [20 * Second, 40 * Second, 70 * Second, 110 * Second])
    ⟨50, 110 * Second⟩ (110 * Second) h⟩

/-- C10 fails as stated: with each test tick processed while the clock reads the tick's own
timestamp, the values are not 10, 15, 25, 40, 45. -/
theorem C10_counterexample :
    WindowedAverage Minute testAtOwnInstant ≠ some [10, 15, 25, 40, 45] := by
  simp [WindowedAverage, WindowedAverage.run, runLoop, WindowedAverage.step,
    WindowedAverage.evict, WindowedAverage.init, Decimal.Div, Since, Minute, Second,
    testAtOwnInstant, testTicks]
  norm_num

/-- C10, amended: `WindowedAverage` with `d` one minute on the five test ticks emits
10, 15, 20, 30, 45 when each tick is processed while the clock reads the tick's own timestamp,
and emits 10, 15, 25, 40, 45 when each tick is processed after the producer's next advance
of the clock (readings 20 s, 40 s, 70 s, 110 s, 110 s). -/
theorem C10_windowedAverage_test_values :
    WindowedAverage Minute testAtOwnInstant = some [10, 15, 20, 30, 45] ∧
    WindowedAverage Minute testAfterAdvance = some [10, 15, 25, 40, 45] := by
  constructor
  · simp [WindowedAverage, WindowedAverage.run, runLoop, WindowedAverage.step,
      WindowedAverage.evict, WindowedAverage.init, Decimal.Div, Since, Minute, Second,
      testAtOwnInstant, testTicks]
    norm_num
  · simp [WindowedAverage, WindowedAverage.run, runLoop, WindowedAverage.step,
      WindowedAverage.evict, WindowedAverage.init, Decimal.Div, Since, Minute, Second,
      testAfterAdvance, testTicks]
    norm_num

/-! ## ExponentialMovingAverage: the weighted sum -/

theorem weighted_sum_of_recurrence (n : Nat) (hn : 1 ≤ n) (alpha : Decimal) (e p : Nat → Decimal)
    (len : Nat) (h0 : e 0 = 0)
    (hrec : ∀ k, 1 ≤ k → k ≤ len →
      e k = alpha * p k + (1 - alpha) *
        (if k ≤ n then e (k - 1) else e (k - 1) - alpha * p (k - n) * (1 - alpha) ^ (n - 1))) :
    ∀ k, k ≤ len →
      e k = Finset.sum (Finset.range (min k n)) (fun i => alpha * (1 - alpha) ^ i * p (k - i)) := by
  intro k
  induction k with
  | zero => intro _; simp [h0]
  | succ k ih =>
    intro hk
    have ihk := ih (by omega)
    rw [hrec (k + 1) (by omega) hk, Nat.add_sub_cancel]
    by_cases hle : k + 1 ≤ n
    · rw [if_pos hle, ihk]
      have e1 : min k n = k := by omega
      have e2 : min (k + 1) n = k + 1 := by omega
      rw [e1, e2, Finset.sum_range_succ', Finset.mul_sum]
      simp only [pow_zero, mul_one, Nat.sub_zero, Nat.add_sub_add_right]
      rw [add_comm]
      congr 1
      apply Finset.sum_congr rfl
      intro i _
      ring
    · rw [if_neg hle, ihk]
      obtain ⟨m, rfl⟩ : ∃ m, n = m + 1 := ⟨n - 1, by omega⟩
      have e1 : min k (m + 1) = m + 1 := by omega
      have e2 : min (k + 1) (m + 1) = m + 1 := by omega
      have e3 : k + 1 - (m + 1) = k - m := by omega
      rw [e1, e2, Nat.add_sub_cancel, e3, Finset.sum_range_succ, Finset.sum_range_succ']
      simp only [pow_zero, mul_one, Nat.sub_zero, Nat.add_sub_add_right]
      have e4 : Finset.sum (Finset.range m) (fun i => alpha * (1 - alpha) ^ i * p (k - i)) +
          alpha * (1 - alpha) ^ m * p (k - m) - alpha * p (k - m) * (1 - alpha) ^ m =
          Finset.sum (Finset.range m) (fun i => alpha * (1 - alpha) ^ i * p (k - i)) := by ring
      rw [e4, add_comm, Finset.mul_sum]
      congr 1
      apply Finset.sum_congr rfl
      intro i _
      ring

theorem ExponentialMovingAverage.run_weighted_sum (N : Int) (hN : 1 ≤ N) (alpha : Decimal)
    (ticks : List Tick) :
    ∃ s es, ExponentialMovingAverage.run N alpha ticks = some (s, es) ∧
      es.length = ticks.length ∧
      ∀ k, k < ticks.length →
        es[k]? = some (Finset.sum (Finset.range (min (k + 1) N.toNat))
          (fun i => alpha * (1 - alpha) ^ i * (prices ticks).getD (k - i) 0)) := by
  obtain ⟨es, hrun, hlen, hrec⟩ := ExponentialMovingAverage.run_spec N hN alpha ticks
  refine ⟨_, es, hrun, hlen, ?_⟩
  intro k hk
  have hn : 1 ≤ N.toNat := by omega
  have hpow : (1 - alpha) ^ (N - 1) = (1 - alpha) ^ (N.toNat - 1) := by
    have : N - 1 = ((N.toNat - 1 : Nat) : Int) := by omega
    rw [this, zpow_natCast]
  have hcf := weighted_sum_of_recurrence N.toNat hn alpha
    (fun j => (0 :: es).getD j 0) (fun j => (0 :: prices ticks).getD j 0) ticks.length rfl
    (by
      intro j hj1 hj2
      have := hrec j hj1 hj2
      simp only [this, hpow]
      have hiff : ((j : Int) ≤ N) ↔ j ≤ N.toNat := by omega
      simp only [hiff])
    (k + 1) (by omega)
  simp only [List.getD_cons_succ] at hcf
  rw [List.getElem?_eq_getElem (by omega)]
  rw [List.getD_eq_getElem _ _ (by omega)] at hcf
  rw [hcf]
  congr 1
  apply Finset.sum_congr rfl
  intro i hi
  rw [Finset.mem_range] at hi
  have : k + 1 - i = (k - i) + 1 := by omega
  rw [this, List.getD_cons_succ]

theorem ExponentialMovingAverage.run_constant (N : Int) (hN : 1 ≤ N) (alpha c : Decimal)
    (ticks : List Tick) (hc : ∀ t ∈ ticks, t.Price = c) :
    ∃ s es, ExponentialMovingAverage.run N alpha ticks = some (s, es) ∧
      es.length = ticks.length ∧
      ∀ k, k < ticks.length →
        es[k]? = some (c * (1 - (1 - alpha) ^ (min (k + 1) N.toNat))) := by
  obtain ⟨s, es, hrun, hlen, hsum⟩ := ExponentialMovingAverage.run_weighted_sum N hN alpha ticks
  refine ⟨s, es, hrun, hlen, ?_⟩
  intro k hk
  rw [hsum k hk]
  congr 1
  have hp : ∀ i ∈ Finset.range (min (k + 1) N.toNat),
      alpha * (1 - alpha) ^ i * (prices ticks).getD (k - i) 0 = c * (alpha * (1 - alpha) ^ i) := by
    intro i _
    have hlt : k - i < (prices ticks).length := by simp [prices]; omega
    rw [List.getD_eq_getElem _ _ hlt]
    have : (prices ticks)[k - i] = c := by
      simp only [prices, List.getElem_map]
      exact hc _ (List.getElem_mem _)
    rw [this]; ring
  rw [Finset.sum_congr rfl hp, ← Finset.mul_sum, ← Finset.mul_sum]
  have hg := mul_neg_geom_sum (1 - alpha) (min (k + 1) N.toNat)
  rw [sub_sub_cancel] at hg
  rw [hg]

theorem fixed_value_iff (alpha c : Decimal) (n : Nat) (hn : 1 ≤ n) :
    c * (1 - (1 - alpha) ^ n) = c ↔ alpha = 1 ∨ c = 0 := by
  constructor
  · intro h
    have h1 : c * (1 - alpha) ^ n = 0 := by linarith
    rcases mul_eq_zero.mp h1 with h2 | h2
    · exact Or.inr h2
    · left
      have := pow_eq_zero_iff (by omega) |>.mp h2
      linarith
  · rintro (h | h)
    · subst h
      have : ((1 : Decimal) - 1) ^ n = 0 := by
        rw [sub_self]; exact zero_pow (by omega)
      rw [this]; ring
    · subst h; ring

/-! ## WindowedAverage: when a value is emitted -/

theorem WindowedAverage.expired_of_window_nil (d : Duration) (now : Time) (w : List Tick)
    (tick : Tick) (h : (w ++ [tick]).dropWhile (WindowedAverage.expired d now) = []) :
    d < now - tick.Timestamp := by
  rw [List.dropWhile_eq_nil_iff] at h
  have := h tick (by simp)
  simpa [WindowedAverage.expired, Since] using this

theorem WindowedAverage.window_ne_nil_iff (d : Duration) (now : Time) (w : List Tick)
    (tick : Tick) (hw : (w ++ [tick]).Pairwise (fun a b => a.Timestamp ≤ b.Timestamp)) :
    (w ++ [tick]).dropWhile (WindowedAverage.expired d now) ≠ [] ↔
      now - tick.Timestamp ≤ d := by
  constructor
  · intro h
    rw [dropWhile_expired_eq_filter d now _ hw] at h
    obtain ⟨e, he⟩ := List.exists_mem_of_ne_nil _ h
    rw [List.mem_filter] at he
    have hk : now - e.Timestamp ≤ d := by simpa using he.2
    have hle : e.Timestamp ≤ tick.Timestamp := by
      rcases List.mem_append.mp he.1 with h1 | h1
      · exact (List.pairwise_append.mp hw).2.2 e h1 tick (by simp)
      · simp at h1; rw [h1]
    linarith
  · intro h hnil
    have := WindowedAverage.expired_of_window_nil d now w tick hnil
    linarith

theorem WindowedAverage.run_count (d : Duration) (xs : List (Tick × Time)) :
    ∃ s outs, WindowedAverage.run d xs = some (s, outs) ∧
      s.sum = (prices s.window).sum ∧ outs.length ≤ xs.length ∧
      (outs.length < xs.length ↔
        ∃ k, k < xs.length ∧ ∃ s1 o1,
          WindowedAverage.run d (xs.take (k + 1)) = some (s1, o1) ∧ s1.window = []) := by
  induction xs using List.reverseRecOn with
  | nil =>
    refine ⟨WindowedAverage.init, [], rfl, by simp [WindowedAverage.init, prices], le_refl _, ?_⟩
    simp
  | append_singleton xs x ih =>
    obtain ⟨s, outs, hrun, hsum, hle, hiff⟩ := ih
    have hstep := WindowedAverage.step_wa_eq d s hsum x
    have hrun2 := runLoop_snoc _ _ _ _ xs x _ _ hrun hstep
    refine ⟨_, _, hrun2, rfl, ?_, ?_⟩
    · by_cases hW : (s.window ++ [x.1]).dropWhile (WindowedAverage.expired d x.2) = []
      · simp [hW]; omega
      · simp [hW]; omega
    · have htake : ∀ k, k < xs.length → (xs ++ [x]).take (k + 1) = xs.take (k + 1) := by
        intro k hk
        exact List.take_append_of_le_length (by omega)
      have hall : (xs ++ [x]).take (xs.length + 1) = xs ++ [x] :=
        List.take_of_length_le (by simp)
      by_cases hW : (s.window ++ [x.1]).dropWhile (WindowedAverage.expired d x.2) = []
      · simp only [hW, if_true, Option.toList, List.append_nil, List.length_append,
          List.length_singleton]
        constructor
        · intro _
          exact ⟨xs.length, by omega, _, _, by rw [hall]; exact hrun2, hW⟩
        · intro _; omega
      · simp only [hW, if_false, Option.toList, List.length_append, List.length_singleton]
        constructor
        · intro h
          obtain ⟨k, hk, s1, o1, h1, h2⟩ := hiff.mp (by omega)
          exact ⟨k, by omega, s1, o1, by rw [htake k hk]; exact h1, h2⟩
        · rintro ⟨k, hk, s1, o1, h1, h2⟩
          by_cases hk' : k < xs.length
          · rw [htake k hk'] at h1
            have := hiff.mpr ⟨k, hk', s1, o1, h1, h2⟩
            omega
          · have hk2 : k = xs.length := by omega
            subst hk2
            rw [hall] at h1
            have heq := h1.symm.trans hrun2
            simp only [Option.some.injEq, Prod.mk.injEq] at heq
            rw [heq.1] at h2
            exact absurd h2 hW

theorem WindowedAverage.run_own_instant (d : Duration) (hd : 0 ≤ d) (xs : List (Tick × Time))
    (hown : ∀ x ∈ xs, x.2 = x.1.Timestamp) :
    ∃ s outs, WindowedAverage.run d xs = some (s, outs) ∧
      s.sum = (prices s.window).sum ∧ outs.length = xs.length := by
  induction xs using List.reverseRecOn with
  | nil => exact ⟨WindowedAverage.init, [], rfl, by simp [WindowedAverage.init, prices], rfl⟩
  | append_singleton xs x ih =>
    obtain ⟨s, outs, hrun, hsum, hlen⟩ := ih (fun y hy => hown y (by simp [hy]))
    have hstep := WindowedAverage.step_wa_eq d s hsum x
    have hrun2 := runLoop_snoc _ _ _ _ xs x _ _ hrun hstep
    refine ⟨_, _, hrun2, rfl, ?_⟩
    have hW : (s.window ++ [x.1]).dropWhile (WindowedAverage.expired d x.2) ≠ [] := by
      intro hnil
      have h1 := WindowedAverage.expired_of_window_nil d x.2 s.window x.1 hnil
      have h2 : x.2 = x.1.Timestamp := hown x (by simp)
      rw [h2, sub_self] at h1
      exact absurd h1 (not_lt.mpr hd)
    simp [hW, hlen]

theorem WindowedAverage.evictChecked_eq (d : Duration) (now : Time) (window : List Tick)
    (sum : Decimal) :
    WindowedAverage.evictChecked d now window sum =
      some (WindowedAverage.evict d now window sum) := by
  induction window generalizing sum with
  | nil =>
    rw [WindowedAverage.evictChecked]
    simp [WindowedAverage.evict]
  | cons w0 rest ih =>
    rw [WindowedAverage.evictChecked]
    by_cases h : Since now w0.Timestamp > d
    · simp [WindowedAverage.evict, h, ih]
    · simp [WindowedAverage.evict, h]

/-! ## The claims, continued -/

/-- C11 fails as stated: with `N = 3`, `alpha = 0.75` and the constant price 10 on three
ticks, the values emitted are 7.5, 9.375 and 9.84375, none of which is 10. -/
theorem C11_counterexample :
    ExponentialMovingAverage 3 0.75 [⟨10, 0⟩, ⟨10, 1⟩, ⟨10, 2⟩] = some [7.5, 9.375, 9.84375] ∧
    ∀ v ∈ [(7.5 : Decimal), 9.375, 9.84375], v ≠ 10 := by
  constructor
  · simp [ExponentialMovingAverage, ExponentialMovingAverage.run, runLoop,
      ExponentialMovingAverage.step, ExponentialMovingAverage.init,
      ExponentialMovingAverage.removalFactor, Decimal.Pow]
    norm_num
  · intro v hv
    simp only [List.mem_cons, List.mem_singleton, List.not_mem_nil, or_false] at hv
    rcases hv with h | h | h <;> rw [h] <;> norm_num

/-- C11, amended: for every `N ≥ 1` and every price `c`, `ExponentialMovingAverage` run with
`alpha = 1`, or with `c = 0`, on a constant-price stream `c, c, ..., c` (of any length) emits
one value per tick and every emitted value is `c`. -/
theorem C11_constant_stream_alpha_one (N : Int) (hN : 1 ≤ N) (alpha c : Decimal)
    (ticks : List Tick) (hc : ∀ t ∈ ticks, t.Price = c) (h : alpha = 1 ∨ c = 0) :
    ∃ es, ExponentialMovingAverage N alpha ticks = some es ∧ es.length = ticks.length ∧
      ∀ v ∈ es, v = c := by
  obtain ⟨s, es, hrun, hlen, hval⟩ := ExponentialMovingAverage.run_constant N hN alpha c ticks hc
  refine ⟨es, by simp [ExponentialMovingAverage, hrun], hlen, ?_⟩
  intro v hv
  obtain ⟨k, hk, rfl⟩ := List.getElem_of_mem hv
  have h1 := hval k (by omega)
  rw [List.getElem?_eq_getElem hk] at h1
  simp only [Option.some.injEq] at h1
  rw [h1]
  exact (fixed_value_iff alpha c _ (by omega)).mpr h

/-- C11, amended, at `N = 3`, `alpha = 1` on three ticks of price 10. -/
theorem C11_constant_stream_alpha_one_witness :
    (1 : Int) ≤ 3 ∧ (∀ t ∈ [(⟨10, 0⟩ : Tick), ⟨10, 1⟩, ⟨10, 2⟩], t.Price = 10) ∧
    ((1 : Decimal) = 1 ∨ (10 : Decimal) = 0) ∧
    ∃ es, ExponentialMovingAverage 3 1 [⟨10, 0⟩, ⟨10, 1⟩, ⟨10, 2⟩] = some es ∧
      es.length = 3 ∧ ∀ v ∈ es, v = 10 :=
  have hc : ∀ t ∈ [(⟨10, 0⟩ : Tick), ⟨10, 1⟩, ⟨10, 2⟩], t.Price = 10 := by
    intro t ht
    simp only [List.mem_cons, List.mem_singleton, List.not_mem_nil, or_false] at ht
    rcases ht with h | h | h <;> rw [h]
  ⟨by decide, hc, Or.inl rfl,
    C11_constant_stream_alpha_one 3 (by decide) 1 10 _ hc (Or.inl rfl)⟩

/-- C12: for every duration, tick sequence and sequence of clock readings,
`WindowedAverage` emits at most one value per tick, and it emits strictly fewer values than
it received ticks if and only if for at least one tick the eviction loop leaves the window
empty; otherwise it emits exactly one value per tick. -/
theorem C12_fewer_outputs_iff_full_eviction (d : Duration) (xs : List (Tick × Time)) :
    ∃ outs, WindowedAverage d xs = some outs ∧ outs.length ≤ xs.length ∧
      (outs.length < xs.length ↔
        ∃ k, k < xs.length ∧ ∃ s o,
          WindowedAverage.run d (xs.take (k + 1)) = some (s, o) ∧ s.window = []) ∧
      ((¬ ∃ k, k < xs.length ∧ ∃ s o,
          WindowedAverage.run d (xs.take (k + 1)) = some (s, o) ∧ s.window = []) →
        outs.length = xs.length) := by
  obtain ⟨s, outs, hrun, _, hle, hiff⟩ := WindowedAverage.run_count d xs
  refine ⟨outs, by simp [WindowedAverage, hrun], hle, hiff, ?_⟩
  intro hno
  have := mt hiff.mp hno
  omega

/-- C13 fails as stated: with `d` one minute, a tick stamped 0 s processed at clock 0 s and a
tick stamped 1 s processed while the clock reads 100 s, the window is empty after the second
tick and only the first tick's value has been emitted, although the interval between the two
ticks, 1 s, is shorter than `d`. -/
theorem C13_counterexample :
    (0 : Duration) < Minute ∧
    WindowedAverage.run Minute [(⟨10, 0⟩, 0), (⟨20, 1 * Second⟩, 100 * Second)]
      = some (⟨[], 0⟩, [10]) ∧
    ¬ (Minute < 1 * Second - 0) := by
  refine ⟨by simp [Minute, Second], ?_, by simp [Minute, Second]⟩
  simp [WindowedAverage.run, runLoop, WindowedAverage.step, WindowedAverage.evict,
    WindowedAverage.init, Decimal.Div, Since, Minute, Second]

/-- C13, amended: for every duration `d`, tick sequence and sequence of clock readings, if
the window of `WindowedAverage` is empty after tick `k` has been processed, then nothing is
emitted for that tick and `d` is shorter than the time elapsed on the clock since the tick's
own timestamp, `d < now_k - ts_k`. -/
theorem C13_empty_window_means_tick_expired (d : Duration) (xs : List (Tick × Time))
    (tick : Tick) (now : Time) (s : WindowedAverage.State) (outs : List Decimal)
    (hrun : WindowedAverage.run d (xs ++ [(tick, now)]) = some (s, outs))
    (hempty : s.window = []) :
    d < now - tick.Timestamp ∧
      ∃ s0, WindowedAverage.run d xs = some (s0, outs) ∧
        WindowedAverage.step d s0 (tick, now) = some (s, none) := by
  obtain ⟨s0, outs0, hrun0, hsum, _⟩ := WindowedAverage.run_inv d xs
  have hstep := WindowedAverage.step_wa_eq d s0 hsum (tick, now)
  have hrun2 := runLoop_snoc _ _ _ _ xs (tick, now) _ _ hrun0 hstep
  have heq := hrun.symm.trans hrun2
  simp only [Option.some.injEq, Prod.mk.injEq] at heq
  obtain ⟨hs, houts⟩ := heq
  have hW : (s0.window ++ [tick]).dropWhile (WindowedAverage.expired d now) = [] := by
    rw [hs] at hempty
    exact hempty
  refine ⟨WindowedAverage.expired_of_window_nil d now s0.window tick hW, s0, ?_, ?_⟩
  · rw [hrun0, houts]
    simp [hW]
  · rw [hstep, hs]
    simp [hW]

/-- C13, amended, on the two ticks stamped 0 s and 1 s, the second one processed while the
clock reads 100 s. -/
theorem C13_empty_window_means_tick_expired_witness :
    WindowedAverage.run Minute ([(⟨10, 0⟩, 0)] ++ [(⟨20, 1 * Second⟩, 100 * Second)])
      = some (⟨[], 0⟩, [10]) ∧
    (⟨[], 0⟩ : WindowedAverage.State).window = [] ∧
    (Minute < 100 * Second - (⟨20, 1 * Second⟩ : Tick).Timestamp ∧
      ∃ s0, WindowedAverage.run Minute [(⟨10, 0⟩, 0)] = some (s0, [10]) ∧
        WindowedAverage.step Minute s0 (⟨20, 1 * Second⟩, 100 * Second)
          = some (⟨[], 0⟩, none)) :=
  have h : WindowedAverage.run Minute ([(⟨10, 0⟩, 0)] ++ [(⟨20, 1 * Second⟩, 100 * Second)])
      = some (⟨[], 0⟩, [10]) := by
    simp [WindowedAverage.run, runLoop, WindowedAverage.step, WindowedAverage.evict,
      WindowedAverage.init, Decimal.Div, Since, Minute, Second]
  ⟨h, rfl, C13_empty_window_means_tick_expired Minute [(⟨10, 0⟩, 0)] ⟨20, 1 * Second⟩
    (100 * Second) ⟨[], 0⟩ [10] h rfl⟩

/-- C14: the operations are total.  For every `N ≥ 1` and every tick sequence,
`MovingAverage` processes every tick without dividing by zero (a value is emitted for each
tick, and the window is non-empty at every emission) and `ExponentialMovingAverage` processes
every tick without reading `window[0]` out of range; for every duration and all clock
readings, `WindowedAverage` processes every tick, dividing exactly when the window is
non-empty, and every read of `window[0]` in its eviction loop is in range. -/
theorem C14_operations_total (N : Int) (hN : 1 ≤ N) (alpha : Decimal) (ticks : List Tick)
    (tick : Tick) (d : Duration) (xs : List (Tick × Time)) (x : Tick × Time)
    (now : Time) (window : List Tick) (sum : Decimal) :
    (∃ s outs s' v, MovingAverage.run N ticks = some (s, outs) ∧ outs.length = ticks.length ∧
      MovingAverage.step N s tick = some (s', some v) ∧ s'.window ≠ [] ∧
      Decimal.Div s'.sum (s'.window.length : Decimal) = some v) ∧
    (∃ s outs s' v, ExponentialMovingAverage.run N alpha ticks = some (s, outs) ∧
      outs.length = ticks.length ∧
      ExponentialMovingAverage.step N alpha s tick = some (s', some v)) ∧
    (∃ s outs s' o, WindowedAverage.run d xs = some (s, outs) ∧
      WindowedAverage.step d s x = some (s', o) ∧ (o = none ↔ s'.window = []) ∧
      (s'.window ≠ [] → Decimal.Div s'.sum (s'.window.length : Decimal) = o)) ∧
    WindowedAverage.evictChecked d now window sum =
      some (WindowedAverage.evict d now window sum) := by
  refine ⟨?_, ?_, ?_, WindowedAverage.evictChecked_eq d now window sum⟩
  · have hstep := MovingAverage.step_ma_eq N hN
      ⟨lastN N.toNat (prices ticks), (lastN N.toNat (prices ticks)).sum⟩ rfl tick
    have hne := MovingAverage.nextWindow_ne_nil N hN (lastN N.toNat (prices ticks)) tick.Price
    refine ⟨_, _, _, _, MovingAverage.run_eq N hN ticks, ?_, hstep, hne, ?_⟩
    · simp [MovingAverage.expected, prices]
    · rw [Div_length _ _ hne]; rfl
  · obtain ⟨es, hrun, hlen, _⟩ := ExponentialMovingAverage.run_spec N hN alpha ticks
    have hE : prices ticks = [] → (0 :: es).getD ticks.length 0 = 0 := by
      intro h
      have : ticks.length = 0 := by
        have := congrArg List.length h
        simpa [prices] using this
      rw [this]; rfl
    exact ⟨_, es, _, _, hrun, hlen,
      ExponentialMovingAverage.step_ema_eq N hN alpha (prices ticks) _ hE tick⟩
  · obtain ⟨s, outs, hrun, hsum, _⟩ := WindowedAverage.run_inv d xs
    refine ⟨s, outs, _, _, hrun, WindowedAverage.step_wa_eq d s hsum x, ?_, ?_⟩
    · by_cases hW : (s.window ++ [x.1]).dropWhile (WindowedAverage.expired d x.2) = []
      · simp [hW]
      · simp [hW]
    · intro hW
      simp only at hW
      have hp : prices ((s.window ++ [x.1]).dropWhile (WindowedAverage.expired d x.2)) ≠ [] := by
        simpa [prices] using hW
      have := Div_length
        (prices ((s.window ++ [x.1]).dropWhile (WindowedAverage.expired d x.2))).sum _ hp
      simp only [prices, List.length_map] at this
      simp only [if_neg hW, mean, prices, List.length_map]
      exact this

/-- C14 at `N = 3`, `alpha = 0.75` and one minute, after four of the test ticks. -/
theorem C14_operations_total_witness :
    (1 : Int) ≤ 3 ∧
    (∃ s outs s' v, MovingAverage.run 3 (testTicks.take 4) = some (s, outs) ∧
      outs.length = (testTicks.take 4).length ∧
      MovingAverage.step 3 s ⟨50, 110 * Second⟩ = some (s', some v) ∧ s'.window ≠ [] ∧
      Decimal.Div s'.sum (s'.window.length : Decimal) = some v) ∧
    (∃ s outs s' v, ExponentialMovingAverage.run 3 0.75 (testTicks.take 4) = some (s, outs) ∧
      outs.length = (testTicks.take 4).length ∧
      ExponentialMovingAverage.step 3 0.75 s ⟨50, 110 * Second⟩ = some (s', some v)) :=
  have h := C14_operations_total 3 (by decide) 0.75 (testTicks.take 4) ⟨50, 110 * Second⟩
    Minute (testAfterAdvance.take 4) (⟨50, 110 * Second⟩, 110 * Second) 0 [] 0
  ⟨by decide, h.1, h.2.1⟩

/-- C15: the division performed by `MovingAverage` is exact: for every `N ≥ 1` and every
sequence of prices, each emitted value `v` satisfies
`v * (current window length) = (running sum of the window)`, with no rounding; the prices
10, 20, 20 with `N = 3` give exactly `50 / 3` as the third value. -/
theorem C15_division_is_exact (N : Int) (hN : 1 ≤ N) (ticks : List Tick) (tick : Tick) :
    (∃ s outs s' v, MovingAverage.run N ticks = some (s, outs) ∧
      MovingAverage.step N s tick = some (s', some v) ∧
      v * (s'.window.length : Decimal) = s'.sum ∧ s'.sum = s'.window.sum) ∧
    (∀ t1 t2 t3 : Time,
      MovingAverage 3 [⟨10, t1⟩, ⟨20, t2⟩, ⟨20, t3⟩] = some [10, 15, 50 / 3]) := by
  constructor
  · have hstep := MovingAverage.step_ma_eq N hN
      ⟨lastN N.toNat (prices ticks), (lastN N.toNat (prices ticks)).sum⟩ rfl tick
    have hne := MovingAverage.nextWindow_ne_nil N hN (lastN N.toNat (prices ticks)) tick.Price
    refine ⟨_, _, _, _, MovingAverage.run_eq N hN ticks, hstep, ?_, rfl⟩
    have hpos : (0 : Decimal) <
        ((MovingAverage.nextWindow N (lastN N.toNat (prices ticks)) tick.Price).length
          : Decimal) := by
      exact_mod_cast List.length_pos.mpr hne
    simp only [mean]
    exact div_mul_cancel₀ _ hpos.ne'
  · intro t1 t2 t3
    simp [MovingAverage, MovingAverage.run, runLoop, MovingAverage.step, MovingAverage.emit,
      MovingAverage.init, Decimal.Div]
    norm_num

/-- C15 at `N = 3` after the prices 10 and 20, for a further price 20. -/
theorem C15_division_is_exact_witness :
    (1 : Int) ≤ 3 ∧
    ∃ s outs s' v, MovingAverage.run 3 [⟨10, 0⟩, ⟨20, 1⟩] = some (s, outs) ∧
      MovingAverage.step 3 s ⟨20, 2⟩ = some (s', some v) ∧
      v * (s'.window.length : Decimal) = s'.sum ∧ s'.sum = s'.window.sum :=
  ⟨by decide, (C15_division_is_exact 3 (by decide) [⟨10, 0⟩, ⟨20, 1⟩] ⟨20, 2⟩).1⟩

/-- C16: for every `N ≥ 1`, every smoothing factor and every tick sequence, the value
`ExponentialMovingAverage` emits for tick `k + 1` (here `es[k]`, counting from 0) is the
finite weighted sum over the last `min (k + 1) N` prices,
`alpha * (1 - alpha)^i * p` for the price `p` received `i` ticks before; so the correction
at each eviction removes exactly the evicted tick's term, and no price older than the last
`N` enters the value. -/
theorem C16_ema_weighted_sum (N : Int) (hN : 1 ≤ N) (alpha : Decimal) (ticks : List Tick) :
    ∃ es, ExponentialMovingAverage N alpha ticks = some es ∧ es.length = ticks.length ∧
      ∀ k, k < ticks.length →
        es[k]? = some (Finset.sum (Finset.range (min (k + 1) N.toNat))
          (fun i => alpha * (1 - alpha) ^ i * (prices ticks).getD (k - i) 0)) := by
  obtain ⟨s, es, hrun, hlen, hsum⟩ := ExponentialMovingAverage.run_weighted_sum N hN alpha ticks
  exact ⟨es, by simp [ExponentialMovingAverage, hrun], hlen, hsum⟩

/-- C16 at `N = 3`, `alpha = 0.75` on the five test ticks: the fifth value is
`0.75 * 50 + 0.75 * 0.25 * 40 + 0.75 * 0.25^2 * 30`, without the prices 10 and 20. -/
theorem C16_ema_weighted_sum_witness :
    (1 : Int) ≤ 3 ∧
    ∃ es, ExponentialMovingAverage 3 0.75 testTicks = some es ∧ es.length = 5 ∧
      es[4]? = some ((0.75 * 50 + 0.75 * 0.25 * 40 + 0.75 * 0.25 ^ 2 * 30 : Decimal)) := by
  refine ⟨by decide, ?_⟩
  obtain ⟨es, h1, h2, h3⟩ := C16_ema_weighted_sum 3 (by decide) 0.75 testTicks
  refine ⟨es, h1, by simpa [testTicks] using h2, ?_⟩
  rw [h3 4 (by simp [testTicks])]
  simp [prices, testTicks, Finset.sum_range_succ]
  norm_num

/-- C17: for every `N ≥ 1`, every smoothing factor and every price `c`,
`ExponentialMovingAverage` run on a constant-price stream emits
`c * (1 - (1 - alpha)^(min k N))` as its `k`-th value (here `es[k]` is the value for tick
`k + 1`); from the `N`-th tick on the value is `c * (1 - (1 - alpha)^N)`, and that equals `c`
only when `alpha = 1` or `c = 0`. -/
theorem C17_ema_constant_stream (N : Int) (hN : 1 ≤ N) (alpha c : Decimal)
    (ticks : List Tick) (hc : ∀ t ∈ ticks, t.Price = c) :
    ∃ es, ExponentialMovingAverage N alpha ticks = some es ∧ es.length = ticks.length ∧
      (∀ k, k < ticks.length →
        es[k]? = some (c * (1 - (1 - alpha) ^ (min (k + 1) N.toNat)))) ∧
      (∀ k, N.toNat ≤ k + 1 → k < ticks.length →
        es[k]? = some (c * (1 - (1 - alpha) ^ N.toNat))) ∧
      (c * (1 - (1 - alpha) ^ N.toNat) = c ↔ alpha = 1 ∨ c = 0) := by
  obtain ⟨s, es, hrun, hlen, hval⟩ := ExponentialMovingAverage.run_constant N hN alpha c ticks hc
  refine ⟨es, by simp [ExponentialMovingAverage, hrun], hlen, hval, ?_,
    fixed_value_iff alpha c _ (by omega)⟩
  intro k hk1 hk2
  rw [hval k hk2]
  have : min (k + 1) N.toNat = N.toNat := by omega
  rw [this]

/-- C17 at `N = 2`, `alpha = 0.75` on three ticks of price 10: the values are 7.5, 9.375,
9.375. -/
theorem C17_ema_constant_stream_witness :
    (1 : Int) ≤ 2 ∧ (∀ t ∈ [(⟨10, 0⟩ : Tick), ⟨10, 1⟩, ⟨10, 2⟩], t.Price = 10) ∧
    ∃ es, ExponentialMovingAverage 2 0.75 [⟨10, 0⟩, ⟨10, 1⟩, ⟨10, 2⟩] = some es ∧
      es[0]? = some (7.5 : Decimal) ∧ es[1]? = some (9.375 : Decimal) ∧
      es[2]? = some (9.375 : Decimal) := by
  have hc : ∀ t ∈ [(⟨10, 0⟩ : Tick), ⟨10, 1⟩, ⟨10, 2⟩], t.Price = 10 := by
    intro t ht
    simp only [List.mem_cons, List.mem_singleton, List.not_mem_nil, or_false] at ht
    rcases ht with h | h | h <;> rw [h]
  obtain ⟨es, h1, _, h3, _, _⟩ := C17_ema_constant_stream 2 (by decide) 0.75 10 _ hc
  refine ⟨by decide, hc, es, h1, ?_, ?_, ?_⟩
  · rw [h3 0 (by simp)]; norm_num [show Int.toNat 2 = 2 from rfl]
  · rw [h3 1 (by simp)]; norm_num [show Int.toNat 2 = 2 from rfl]
  · rw [h3 2 (by simp)]; norm_num [show Int.toNat 2 = 2 from rfl]

/-- C18: for every duration `d` and every tick sequence with non-decreasing timestamps,
`WindowedAverage` emits a value for a tick if and only if the tick itself is still within
the window when it is processed, `now - tick.Timestamp ≤ d`, whatever the interval to the
previous tick; and when every tick is processed while the clock reads the tick's own
timestamp and `0 ≤ d`, a value is emitted for every tick. -/
theorem C18_emits_iff_tick_within_window (d : Duration) (xs : List (Tick × Time))
    (tick : Tick) (now : Time)
    (hts : ((xs ++ [(tick, now)]).map (fun x => x.1.Timestamp)).Sorted (· ≤ ·)) :
    (∃ s outs s' o, WindowedAverage.run d xs = some (s, outs) ∧
      WindowedAverage.step d s (tick, now) = some (s', o) ∧
      WindowedAverage d (xs ++ [(tick, now)]) = some (outs ++ o.toList) ∧
      (o.isSome ↔ now - tick.Timestamp ≤ d)) ∧
    (0 ≤ d → (∀ y ∈ xs ++ [(tick, now)], y.2 = y.1.Timestamp) →
      ∃ outs, WindowedAverage d (xs ++ [(tick, now)]) = some outs ∧
        outs.length = (xs ++ [(tick, now)]).length) := by
  constructor
  · obtain ⟨s, outs, hrun, hsum, hsuf⟩ := WindowedAverage.run_inv d xs
    have hstep := WindowedAverage.step_wa_eq d s hsum (tick, now)
    have hrun2 := runLoop_snoc _ _ _ _ xs (tick, now) _ _ hrun hstep
    have hsuf' : s.window ++ [tick] <:+ (xs ++ [(tick, now)]).map Prod.fst := by
      obtain ⟨pre, hpre⟩ := hsuf
      exact ⟨pre, by rw [← List.append_assoc, hpre]; simp⟩
    have h1 : ((xs ++ [(tick, now)]).map Prod.fst).Pairwise
        (fun a b => a.Timestamp ≤ b.Timestamp) := by
      rw [List.pairwise_map]
      exact List.pairwise_map.mp hts
    have h2 : (s.window ++ [tick]).Pairwise (fun a b => a.Timestamp ≤ b.Timestamp) :=
      h1.sublist hsuf'.sublist
    have hiff := WindowedAverage.window_ne_nil_iff d now s.window tick h2
    refine ⟨s, outs, _, _, hrun, hstep, by simp [WindowedAverage, WindowedAverage.run, hrun2], ?_⟩
    rw [← hiff]
    by_cases hW : (s.window ++ [tick]).dropWhile (WindowedAverage.expired d now) = []
    · simp [hW]
    · simp [hW]
  · intro hd hown
    obtain ⟨s, outs, hrun, _, hlen⟩ := WindowedAverage.run_own_instant d hd _ hown
    exact ⟨outs, by simp [WindowedAverage, hrun], hlen⟩

/-- C18 on the five test ticks, each processed after the clock's next advance: the fifth tick
is processed at its own instant, and a value is emitted for it. -/
theorem C18_emits_iff_tick_within_window_witness :
    ((testAfterAdvance.map (fun x => x.1.Timestamp)).Sorted (· ≤ ·)) ∧
    ∃ s outs s' o, WindowedAverage.run Minute (testAfterAdvance.take 4) = some (s, outs) ∧
      WindowedAverage.step Minute s (⟨50, 110 * Second⟩, 110 * Second) = some (s', o) ∧
      WindowedAverage Minute testAfterAdvance = some (outs ++ o.toList) ∧
      (o.isSome ↔ 110 * Second - (⟨50, 110 * Second⟩ : Tick).Timestamp ≤ Minute) :=
  have h : ((testAfterAdvance.map (fun x => x.1.Timestamp)).Sorted (· ≤ ·)) := by
    simp [testAfterAdvance, testTicks, Second]
  ⟨h, (C18_emits_iff_tick_within_window Minute (testAfterAdvance.take 4)
    ⟨50, 110 * Second⟩ (110 * Second) h).1⟩

end calculators
